import Mathlib

set_option maxRecDepth 8000

/-!
Verification of the Minimum-cost Genome Planner
(src/genome_planner_flex.cpp, src/greedy_planner_clean.cpp).

Modelling conventions:
* C++ `double` costs are modelled as rationals (`ℚ`); the magic constants
  (`1e18` DP sentinel) are exactly representable in `double`, so the
  comparisons the claims depend on are faithfully reproduced.
* The sdsl FM-index (an external library, outside this repository) is
  abstracted to its query interface `FMIndex`: `init`/`extend` model the
  incremental `backward_search` (the state type `σ` abstracts the
  suffix-array interval `[l, r]`, the returned `ℕ` is the occurrence count),
  `count` models the one-shot `sdsl::count`.  `strFM src` is the reference
  instance answering exact-substring-membership queries over `src`.
* `chosen_len` cells are `uint16_t` in the source, hence lengths are stored
  mod 2^16.  `pred` cells are `long long`, modelled as `Int`.  The `uint64`
  statistics counters are modelled as `ℕ` (each is bounded by the sequence
  length, so no 64-bit wraparound is reachable from any C++ input).
* The C++ `while` loops (backtracking, greedy sweep) are modelled with a
  fuel parameter; fuel `N` is enough since the loop variable strictly
  advances through `[0, N]`.
-/

/-- Cost-model parameters (CLI arguments `pcr join synth_linear synth_quad`). -/
structure CostModel where
  cost_pcr : ℚ
  cost_join : ℚ
  cost_synth_linear : ℚ
  cost_synth_quad : ℚ
deriving DecidableEq

/-- Abstract FM-index query interface consumed by the planners. -/
structure FMIndex (σ : Type) where
  init : σ
  extend : σ → Char → σ × ℕ
  count : List Char → ℕ

/-- Helper `cost_synth_nonlinear` from greedy_planner_clean.cpp (lines 164-167). -/
def cost_synth_nonlinear (len : ℕ) (linear_per_base quad_coeff : ℚ) : ℚ :=
  linear_per_base * (len : ℚ) + quad_coeff * (len : ℚ) * (len : ℚ)

/-- The `1e18` sentinel used to initialise the DP table and `min_cost_for_i`. -/
def sentinel : ℚ := 1000000000000000000

/-- Data recorded for a DP position `i`: `min_cost_for_i`, `pred[i]`,
`chosen_len[i]` (a `uint16_t`, hence stored mod 2^16), `chosen_is_reuse[i]`. -/
structure Choice where
  cost : ℚ
  pred : Int
  len : ℕ
  isReuse : Bool
deriving DecidableEq

/-- Initial per-position data: cost `1e18`, `pred = -1`, `chosen_len = 0`,
`chosen_is_reuse = 0`. -/
def initChoice : Choice := ⟨sentinel, -1, 0, false⟩

/-- The substring `chrom_seq[j..i)`. -/
def sliceOf (s : List Char) (j i : ℕ) : List Char := (s.drop j).take (i - j)

/-- Whether `pat` occurs in `src` starting at position `k`. -/
def occursAt (src pat : List Char) (k : ℕ) : Bool :=
  decide ((src.drop k).take pat.length = pat)

/-- Number of occurrence positions of `pat` in `src`. -/
def countOcc (src pat : List Char) : ℕ :=
  ((List.range (src.length + 1)).filter (fun k => occursAt src pat k)).length

/-- One-shot exact-substring membership: `pat` occurs somewhere in `src`. -/
def occursIn (src pat : List Char) : Bool := decide (0 < countOcc src pat)

/-- Reference FM-index over a source sequence `src`: the search state is the
pattern accumulated so far, `extend` prepends one character (exactly what
`sdsl::backward_search` does) and reports the occurrence count of the grown
pattern, `count` is the one-shot occurrence count. -/
def strFM (src : List Char) : FMIndex (List Char) where
  init := []
  extend := fun st c => (c :: st, countOcc src (c :: st))
  count := fun pat => countOcc src pat

/-- `query_kmer` (both planners): OR of one-shot counts over the loaded indexes. -/
def query_kmer {σ : Type} (kmer : List Char) (indexes : List (FMIndex σ)) : Bool :=
  indexes.any (fun index => decide (0 < index.count kmer))

/-- Inner pruned loop of `update_min_cost_for_i` (lines 233-245): once the
match interval is empty, all remaining candidate lengths are necessarily
synthesis; only their path costs are evaluated. -/
def synthLoop (cm : CostModel) (DPf : ℕ → ℚ) (i : ℕ) : List ℕ → Choice → Choice
  | [], ch => ch
  | w2 :: rest, ch =>
    let j2 := i - w2
    let path_cost2 := DPf j2
      + (cm.cost_synth_linear * (w2 : ℚ) + cm.cost_synth_quad * (w2 : ℚ) * (w2 : ℚ))
      + (if 0 < j2 then cm.cost_join else 0)
    let ch2 := if path_cost2 < ch.cost then ⟨path_cost2, (j2 : Int), w2 % 65536, false⟩ else ch
    synthLoop cm DPf i rest ch2

/-- Main incremental loop of `update_min_cost_for_i` (lines 211-247): extend
the backward-search state by one prepended character per candidate length,
keep the running strict minimum, and switch to `synthLoop` as soon as the
occurrence count reaches 0. -/
def incLoop {σ : Type} (fm : FMIndex σ) (cm : CostModel) (s : List Char)
    (DPf : ℕ → ℚ) (i : ℕ) : σ → List ℕ → Choice → Choice
  | _, [], ch => ch
  | st, w :: rest, ch =>
    let j := i - w
    let er := fm.extend st (s.getD j 'A')
    let occ := er.2
    let is_reuse : Bool := decide (0 < occ)
    let acquisition_cost := if is_reuse then cm.cost_pcr
      else cm.cost_synth_linear * (w : ℚ) + cm.cost_synth_quad * (w : ℚ) * (w : ℚ)
    let path_cost := DPf j + acquisition_cost + (if 0 < j then cm.cost_join else 0)
    let ch2 := if path_cost < ch.cost then ⟨path_cost, (j : Int), w % 65536, is_reuse⟩ else ch
    if occ = 0 then synthLoop cm DPf i rest ch2
    else incLoop fm cm s DPf i er.1 rest ch2

/-- `update_min_cost_for_i` (genome_planner_flex.cpp lines 189-248): scan
candidate lengths `w = 1, ..., min(W, i)` with the incremental oracle. -/
def update_min_cost_for_i {σ : Type} (fm : FMIndex σ) (cm : CostModel) (s : List Char)
    (DPf : ℕ → ℚ) (i W : ℕ) : Choice :=
  incLoop fm cm s DPf i fm.init (List.range' 1 (min W i)) initChoice

/-- Fallback inner loop of `solve_dp_for_chromosome` (lines 276-296): one
independent one-shot substring query per candidate length, OR over indexes. -/
def naiveLoop {σ : Type} (indexes : List (FMIndex σ)) (cm : CostModel) (s : List Char)
    (DPf : ℕ → ℚ) (i : ℕ) : List ℕ → Choice → Choice
  | [], ch => ch
  | w :: rest, ch =>
    let j := i - w
    let reusable := indexes.any (fun index => decide (0 < index.count (sliceOf s j i)))
    let acquisition_cost := if reusable then cm.cost_pcr
      else cm.cost_synth_linear * (w : ℚ) + cm.cost_synth_quad * (w : ℚ) * (w : ℚ)
    let path_cost := DPf j + acquisition_cost + (if 0 < j then cm.cost_join else 0)
    let ch2 := if path_cost < ch.cost then ⟨path_cost, (j : Int), w % 65536, reusable⟩ else ch
    naiveLoop indexes cm s DPf i rest ch2

/-- The fallback computation for one position `i` (the `else` branch of the
DP sweep). -/
def naive_update_for_i {σ : Type} (indexes : List (FMIndex σ)) (cm : CostModel)
    (s : List Char) (DPf : ℕ → ℚ) (i W : ℕ) : Choice :=
  naiveLoop indexes cm s DPf i (List.range' 1 (min W i)) initChoice

/-- DP tables after positions `1..n` have been processed on the incremental
(single-index) path: the `DP` array (entry `j` at index `j`) and the
per-position records.  Unwritten entries read as the `1e18` sentinel, exactly
as in the C++ initialisation. -/
def dpTable {σ : Type} (fm : FMIndex σ) (cm : CostModel) (s : List Char) (W : ℕ) :
    ℕ → List ℚ × List Choice
  | 0 => ([0], [initChoice])
  | n + 1 =>
    let t := dpTable fm cm s W n
    let ch := update_min_cost_for_i fm cm s (fun j => t.1.getD j sentinel) (n + 1) W
    (t.1 ++ [ch.cost], t.2 ++ [ch])

/-- DP tables on the multi-index fallback path. -/
def dpTableNaive {σ : Type} (indexes : List (FMIndex σ)) (cm : CostModel) (s : List Char)
    (W : ℕ) : ℕ → List ℚ × List Choice
  | 0 => ([0], [initChoice])
  | n + 1 =>
    let t := dpTableNaive indexes cm s W n
    let ch := naive_update_for_i indexes cm s (fun j => t.1.getD j sentinel) (n + 1) W
    (t.1 ++ [ch.cost], t.2 ++ [ch])

/-- One block of a reconstructed plan: half-open interval `[bstart, bend)`,
the stored (`uint16_t`) length and the acquisition kind. -/
structure Block where
  bstart : ℕ
  bend : ℕ
  blen : ℕ
  breuse : Bool
deriving DecidableEq

/-- Backtracking loop of `solve_dp_for_chromosome` (lines 311-331), following
predecessor links from `cur` down to 0.  `fuel` bounds the iteration count;
the C++ loop runs at most `cur` times because `cur` strictly decreases. -/
def backtrackAux (chs : List Choice) : ℕ → ℕ → List Block
  | 0, _ => []
  | fuel + 1, cur =>
    if cur = 0 then []
    else
      let ch := chs.getD cur initChoice
      if ch.pred < 0 ∨ ch.len = 0 then []
      else ⟨ch.pred.toNat, cur, ch.len, ch.isReuse⟩ :: backtrackAux chs fuel ch.pred.toNat

/-- `PlannerStats` / `GreedyStats`: total cost and aggregate counters. -/
structure PlannerStats where
  cost : ℚ
  reuse_moves : ℕ
  synth_moves : ℕ
  joins : ℕ
  segments : ℕ
  reuse_bases : ℕ
  synth_bases : ℕ
  length : ℕ
deriving DecidableEq

/-- A default-initialised `PlannerStats` (all counters 0, cost 0). -/
def zeroStats : PlannerStats := ⟨0, 0, 0, 0, 0, 0, 0, 0⟩

/-- Aggregation of the backtracked blocks into `PlannerStats`
(genome_planner_flex.cpp lines 302-339). -/
def statsOfBacktrack (cost : ℚ) (N : ℕ) (bs : List Block) : PlannerStats :=
  { cost := cost
    reuse_moves := (bs.filter (fun b => b.breuse)).length
    synth_moves := (bs.filter (fun b => !b.breuse)).length
    joins := if 0 < bs.length then bs.length - 1 else 0
    segments := bs.length
    reuse_bases := ((bs.filter (fun b => b.breuse)).map (fun b => b.blen)).sum
    synth_bases := ((bs.filter (fun b => !b.breuse)).map (fun b => b.blen)).sum
    length := N }

/-- `solve_dp_for_chromosome` (lines 254-340): zero result for an empty
sequence; otherwise run the DP sweep (incremental path iff exactly one index
is loaded, like `indexes.size() == 1`), read off `DP[N]` and backtrack. -/
def solve_dp_for_chromosome {σ : Type} (indexes : List (FMIndex σ)) (cm : CostModel)
    (chrom_seq : List Char) (W : ℕ) : PlannerStats :=
  let N := chrom_seq.length
  if N = 0 then zeroStats
  else
    match indexes with
    | [fm] =>
      let t := dpTable fm cm chrom_seq W N
      statsOfBacktrack (t.1.getD N sentinel) N (backtrackAux t.2 N N)
    | _ =>
      let t := dpTableNaive indexes cm chrom_seq W N
      statsOfBacktrack (t.1.getD N sentinel) N (backtrackAux t.2 N N)

/-- The DP solver forced onto the fallback (per-length one-shot query) path,
for comparing the two paths on the same single oracle. -/
def solve_dp_naive {σ : Type} (indexes : List (FMIndex σ)) (cm : CostModel)
    (chrom_seq : List Char) (W : ℕ) : PlannerStats :=
  let N := chrom_seq.length
  if N = 0 then zeroStats
  else
    let t := dpTableNaive indexes cm chrom_seq W N
    statsOfBacktrack (t.1.getD N sentinel) N (backtrackAux t.2 N N)

/-- Final `DP[i]` value (read from the run up to position `i`; later steps
only append). -/
def dpValAt {σ : Type} (fm : FMIndex σ) (cm : CostModel) (s : List Char) (W i : ℕ) : ℚ :=
  ((dpTable fm cm s W i).1).getD i sentinel

/-- Final recorded data for position `i`. -/
def dpChoiceAt {σ : Type} (fm : FMIndex σ) (cm : CostModel) (s : List Char) (W i : ℕ) : Choice :=
  ((dpTable fm cm s W i).2).getD i initChoice

/-- Fallback-path analogues of `dpValAt` / `dpChoiceAt`. -/
def dpValNaiveAt {σ : Type} (indexes : List (FMIndex σ)) (cm : CostModel) (s : List Char)
    (W i : ℕ) : ℚ :=
  ((dpTableNaive indexes cm s W i).1).getD i sentinel

def dpChoiceNaiveAt {σ : Type} (indexes : List (FMIndex σ)) (cm : CostModel) (s : List Char)
    (W i : ℕ) : Choice :=
  ((dpTableNaive indexes cm s W i).2).getD i initChoice

/-- The block list recovered by DP backtracking (last block first, as the
C++ loop visits them). -/
def dp_blocks {σ : Type} (indexes : List (FMIndex σ)) (cm : CostModel) (s : List Char)
    (W : ℕ) : List Block :=
  let N := s.length
  if N = 0 then []
  else
    match indexes with
    | [fm] => backtrackAux (dpTable fm cm s W N).2 N N
    | _ => backtrackAux (dpTableNaive indexes cm s W N).2 N N

/-- Longest-first candidate scan of the greedy planner
(greedy_planner_clean.cpp lines 211-218): try `w, w-1, ..., 1`, return the
first reusable length, 0 when none is. -/
def find_best_w {σ : Type} (indexes : List (FMIndex σ)) (s : List Char) (i : ℕ) : ℕ → ℕ
  | 0 => 0
  | w + 1 =>
    if query_kmer (sliceOf s i (i + (w + 1))) indexes then w + 1
    else find_best_w indexes s i w

/-- Greedy sweep (lines 209-236), accumulating cost and counters.  `fuel`
bounds the iteration count (each step advances `i` by at least one). -/
def greedyAux {σ : Type} (indexes : List (FMIndex σ)) (cm : CostModel) (s : List Char)
    (W N : ℕ) : ℕ → ℕ → PlannerStats → PlannerStats
  | 0, _, acc => acc
  | fuel + 1, i, acc =>
    if i < N then
      let best_w := find_best_w indexes s i (min W (N - i))
      let acc1 := { acc with segments := acc.segments + 1,
                             cost := acc.cost + (if 0 < i then cm.cost_join else 0) }
      if 0 < best_w then
        greedyAux indexes cm s W N fuel (i + best_w)
          { acc1 with cost := acc1.cost + cm.cost_pcr,
                      reuse_moves := acc1.reuse_moves + 1,
                      reuse_bases := acc1.reuse_bases + best_w }
      else
        greedyAux indexes cm s W N fuel (i + 1)
          { acc1 with
              cost := acc1.cost + cost_synth_nonlinear 1 cm.cost_synth_linear cm.cost_synth_quad,
              synth_moves := acc1.synth_moves + 1,
              synth_bases := acc1.synth_bases + 1 }
    else acc

/-- `solve_greedy_for_chromosome_stats` (lines 196-246). -/
def solve_greedy_for_chromosome_stats {σ : Type} (indexes : List (FMIndex σ)) (cm : CostModel)
    (chrom_seq : List Char) (W : ℕ) : PlannerStats :=
  let N := chrom_seq.length
  if N = 0 then zeroStats
  else
    let r := greedyAux indexes cm chrom_seq W N N 0 zeroStats
    { r with joins := if 0 < r.segments then r.segments - 1 else 0, length := N }

/-- The block trace of the greedy sweep (same recursion as `greedyAux`,
recording the chosen blocks instead of the counters). -/
def greedyBlocksAux {σ : Type} (indexes : List (FMIndex σ)) (s : List Char) (W N : ℕ) :
    ℕ → ℕ → List Block
  | 0, _ => []
  | fuel + 1, i =>
    if i < N then
      if 0 < find_best_w indexes s i (min W (N - i)) then
        ⟨i, i + find_best_w indexes s i (min W (N - i)),
          find_best_w indexes s i (min W (N - i)), true⟩ ::
          greedyBlocksAux indexes s W N fuel (i + find_best_w indexes s i (min W (N - i)))
      else
        ⟨i, i + 1, 1, false⟩ :: greedyBlocksAux indexes s W N fuel (i + 1)
    else []

/-- Blocks chosen by the greedy planner, in left-to-right order. -/
def greedy_blocks {σ : Type} (indexes : List (FMIndex σ)) (s : List Char) (W : ℕ) :
    List Block :=
  greedyBlocksAux indexes s W s.length s.length 0

/-- Specification-side: total cost of the partition whose block lengths,
left to right from position `pos`, are `lens`: per block a reuse cost iff the
block substring occurs in `src` (else the synthesis polynomial), plus a join
for every block not starting at position 0. -/
def partCostAux (src : List Char) (cm : CostModel) (s : List Char) : ℕ → List ℕ → ℚ
  | _, [] => 0
  | pos, w :: rest =>
    (if 0 < pos then cm.cost_join else 0)
    + (if occursIn src (sliceOf s pos (pos + w)) then cm.cost_pcr
       else cm.cost_synth_linear * (w : ℚ) + cm.cost_synth_quad * (w : ℚ) * (w : ℚ))
    + partCostAux src cm s (pos + w) rest

/-- Cost of a full partition (given by its block lengths) of `[0, N)`. -/
def partitionCost (src : List Char) (cm : CostModel) (s : List Char) (lens : List ℕ) : ℚ :=
  partCostAux src cm s 0 lens

/-- Validity of a block-length list for a prefix `[0, n)`: lengths cover the
prefix exactly and each lies in `[1, W]`. -/
def ValidLens (W n : ℕ) (lens : List ℕ) : Prop :=
  lens.sum = n ∧ ∀ l ∈ lens, 1 ≤ l ∧ l ≤ W

/-- Specification-side: the blocks determined by a length list, with the
acquisition kind recomputed from the membership oracle. -/
def blocksOfLens (src s : List Char) : ℕ → List ℕ → List Block
  | _, [] => []
  | pos, w :: rest =>
    ⟨pos, pos + w, w, occursIn src (sliceOf s pos (pos + w))⟩ :: blocksOfLens src s (pos + w) rest

/-- Half-open intervals induced by a length list starting at `pos`. -/
def intervalsOf : ℕ → List ℕ → List (ℕ × ℕ)
  | _, [] => []
  | pos, w :: rest => (pos, pos + w) :: intervalsOf (pos + w) rest

/-- Path cost of the candidate block `[i-w, i)` at position `i`, relative to
an arbitrary table of earlier DP values `DPf`. -/
def pcOf {σ : Type} (fm : FMIndex σ) (cm : CostModel) (s : List Char) (DPf : ℕ → ℚ)
    (i w : ℕ) : ℚ :=
  DPf (i - w)
  + (if 0 < fm.count (sliceOf s (i - w) i) then cm.cost_pcr
     else cm.cost_synth_linear * (w : ℚ) + cm.cost_synth_quad * (w : ℚ) * (w : ℚ))
  + (if 0 < i - w then cm.cost_join else 0)

/-- The record the DP sweep would store for candidate `w` at position `i`. -/
def chOf {σ : Type} (fm : FMIndex σ) (cm : CostModel) (s : List Char) (DPf : ℕ → ℚ)
    (i w : ℕ) : Choice :=
  ⟨pcOf fm cm s DPf i w, ((i - w : ℕ) : Int), w % 65536,
    decide (0 < fm.count (sliceOf s (i - w) i))⟩

/-- Path cost of candidate `w` at `i` in terms of the final DP values. -/
def candCost {σ : Type} (fm : FMIndex σ) (cm : CostModel) (s : List Char) (W i w : ℕ) : ℚ :=
  pcOf fm cm s (fun j => dpValAt fm cm s W j) i w

/-- Candidate record at `i` in terms of the final DP values. -/
def candCh {σ : Type} (fm : FMIndex σ) (cm : CostModel) (s : List Char) (W i w : ℕ) : Choice :=
  chOf fm cm s (fun j => dpValAt fm cm s W j) i w

/-- Generic strict-minimum fold over a candidate list: the skeleton shared by
`incLoop`, `synthLoop` and `naiveLoop`. -/
def minFold (pc : ℕ → ℚ) (cand : ℕ → Choice) : List ℕ → Choice → Choice
  | [], ch => ch
  | w :: ws, ch => minFold pc cand ws (if pc w < ch.cost then cand w else ch)

/-- Backward-search state after prepending `w` characters of `s[.. i)`,
starting from the oracle's initial (empty-pattern) state. -/
def extState {σ : Type} (fm : FMIndex σ) (s : List Char) (i : ℕ) : ℕ → σ
  | 0 => fm.init
  | w + 1 => (fm.extend (extState fm s i w) (s.getD (i - (w + 1)) 'A')).1

/-- Occurrence count reported by the `w`-th incremental extension step. -/
def extOcc {σ : Type} (fm : FMIndex σ) (s : List Char) (i : ℕ) : ℕ → ℕ
  | 0 => 1
  | w + 1 => (fm.extend (extState fm s i w) (s.getD (i - (w + 1)) 'A')).2

/-- Hypothesis of C2: the incremental extension answers agree (on emptiness)
with one-shot substring membership, for every candidate block of the sweep. -/
def AgreeInc {σ : Type} (fm : FMIndex σ) (s : List Char) (W : ℕ) : Prop :=
  ∀ i, i ≤ s.length → ∀ w, w ≤ min W i → 1 ≤ w →
    ((0 < extOcc fm s i w) ↔ 0 < fm.count (sliceOf s (i - w) i))

/-- Hypothesis of C2: once the one-shot count is 0 at length `w`, it is 0 for
every longer candidate length at the same end position. -/
def MonoCount {σ : Type} (fm : FMIndex σ) (s : List Char) (W : ℕ) : Prop :=
  ∀ i, i ≤ s.length → ∀ w, w ≤ min W i → ∀ w2, w2 ≤ min W i → w ≤ w2 →
    fm.count (sliceOf s (i - w) i) = 0 → fm.count (sliceOf s (i - w2) i) = 0

/-- Accumulation of the run totals in `main` (both binaries): empty records
are skipped (`continue`), all others contribute every counter and the length. -/
def accumulate_totals (total stats : PlannerStats) (n : ℕ) : PlannerStats :=
  { cost := total.cost + stats.cost
    reuse_moves := total.reuse_moves + stats.reuse_moves
    synth_moves := total.synth_moves + stats.synth_moves
    joins := total.joins + stats.joins
    segments := total.segments + stats.segments
    reuse_bases := total.reuse_bases + stats.reuse_bases
    synth_bases := total.synth_bases + stats.synth_bases
    length := total.length + n }

/-- Run totals over a list of records for a given per-sequence solver. -/
def run_totals (solver : List Char → PlannerStats) (records : List (List Char)) : PlannerStats :=
  records.foldl
    (fun total r => if r.length = 0 then total else accumulate_totals total (solver r) r.length)
    zeroStats

/-- Upper bound on the acquisition cost of any length-1 block. -/
def maxBlock1 (cm : CostModel) : ℚ :=
  max cm.cost_pcr (cm.cost_synth_linear + cm.cost_synth_quad)

/-- Specification-side accumulator mirroring one greedy step per block:
applied to the greedy block trace it reproduces `greedyAux` exactly. -/
def accPlus (cm : CostModel) : PlannerStats → List Block → PlannerStats
  | acc, [] => acc
  | acc, b :: rest =>
    accPlus cm
      { acc with
          segments := acc.segments + 1,
          cost := acc.cost + (if 0 < b.bstart then cm.cost_join else 0)
            + (if b.breuse then cm.cost_pcr
               else cost_synth_nonlinear b.blen cm.cost_synth_linear cm.cost_synth_quad),
          reuse_moves := acc.reuse_moves + (if b.breuse then 1 else 0),
          synth_moves := acc.synth_moves + (if b.breuse then 0 else 1),
          reuse_bases := acc.reuse_bases + (if b.breuse then b.blen else 0),
          synth_bases := acc.synth_bases + (if b.breuse then 0 else b.blen) } rest

/-- Cost parameters with an astronomically large (but non-negative) linear
synthesis coefficient, exceeding the `1e18` DP sentinel. -/
def cmBig : CostModel := ⟨0, 0, 2000000000000000000, 0⟩

/-! ### Slices and occurrence counting -/

theorem sliceOf_self (s : List Char) (i : ℕ) : sliceOf s i i = [] := by
  simp [sliceOf]

theorem sliceOf_cons {s : List Char} {j i : ℕ} (hj : j < i) (hjl : j < s.length) :
    sliceOf s j i = s.getD j 'A' :: sliceOf s (j + 1) i := by
  unfold sliceOf
  rw [List.drop_eq_getElem_cons hjl]
  have h1 : i - j = (i - (j + 1)) + 1 := by omega
  rw [h1, List.take_succ_cons, List.getD_eq_getElem s 'A' hjl]

theorem countOcc_pos_iff {src pat : List Char} :
    0 < countOcc src pat ↔ ∃ k, k ≤ src.length ∧ occursAt src pat k = true := by
  unfold countOcc
  rw [List.length_pos_iff_exists_mem]
  constructor
  · rintro ⟨k, hk⟩
    rw [List.mem_filter, List.mem_range] at hk
    exact ⟨k, by omega, hk.2⟩
  · rintro ⟨k, hk, hocc⟩
    exact ⟨k, List.mem_filter.2 ⟨List.mem_range.2 (by omega), hocc⟩⟩

theorem occursAt_cons {src pat : List Char} {c : Char} {k : ℕ}
    (h : occursAt src (c :: pat) k = true) :
    occursAt src pat (k + 1) = true ∧ k + 1 ≤ src.length := by
  unfold occursAt at h ⊢
  rw [decide_eq_true_eq] at h
  rcases hd : src.drop k with _ | ⟨a, t⟩
  · rw [hd] at h; simp at h
  · rw [hd] at h
    simp only [List.length_cons, List.take_succ_cons, List.cons.injEq] at h
    have hk : k < src.length := by
      by_contra hk
      rw [List.drop_eq_nil_of_le (by omega)] at hd
      exact List.noConfusion hd
    have ht : src.drop (k + 1) = t := by
      have := List.drop_drop 1 k src
      rw [hd] at this
      simpa [Nat.add_comm] using this.symm
    rw [decide_eq_true_eq, ht]
    exact ⟨h.2, by omega⟩

theorem countOcc_cons_pos {src pat : List Char} {c : Char}
    (h : 0 < countOcc src (c :: pat)) : 0 < countOcc src pat := by
  rw [countOcc_pos_iff] at h ⊢
  obtain ⟨k, _, hocc⟩ := h
  obtain ⟨h1, h2⟩ := occursAt_cons hocc
  exact ⟨k + 1, h2, h1⟩

theorem occursIn_iff {src p : List Char} : occursIn src p = true ↔ 0 < countOcc src p := by
  simp [occursIn]

/-! ### The reference oracle satisfies the incremental-agreement and
monotonicity contracts -/

theorem strFM_extState {src s : List Char} {i : ℕ} :
    ∀ w, w ≤ i → i ≤ s.length → extState (strFM src) s i w = sliceOf s (i - w) i := by
  intro w
  induction w with
  | zero => intro _ _; simp [extState, sliceOf_self, strFM]
  | succ w ih =>
    intro hw hi
    have h1 : i - (w + 1) + 1 = i - w := by omega
    show s.getD (i - (w + 1)) 'A' :: extState (strFM src) s i w = _
    rw [ih (by omega) hi,
      sliceOf_cons (show i - (w + 1) < i by omega) (show i - (w + 1) < s.length by omega), h1]

theorem strFM_extOcc {src s : List Char} {i w : ℕ} (h1 : 1 ≤ w) (hw : w ≤ i)
    (hi : i ≤ s.length) :
    extOcc (strFM src) s i w = countOcc src (sliceOf s (i - w) i) := by
  obtain ⟨v, rfl⟩ : ∃ v, w = v + 1 := ⟨w - 1, by omega⟩
  have h1 : i - (v + 1) + 1 = i - v := by omega
  show countOcc src (s.getD (i - (v + 1)) 'A' :: extState (strFM src) s i v) = _
  rw [strFM_extState v (by omega) hi,
    sliceOf_cons (show i - (v + 1) < i by omega) (show i - (v + 1) < s.length by omega), h1]

theorem strFM_agree (src s : List Char) (W : ℕ) : AgreeInc (strFM src) s W := by
  intro i hi w hw h1
  rw [strFM_extOcc h1 (by omega) hi]
  exact Iff.rfl

theorem strFM_mono (src s : List Char) (W : ℕ) : MonoCount (strFM src) s W := by
  intro i hi w hw w2 hw2 hle h0
  induction w2, hle using Nat.le_induction with
  | base => exact h0
  | succ w2 hle ih =>
    have hw2i : w2 + 1 ≤ i := le_trans hw2 (min_le_right W i)
    have hw2le : w2 ≤ min W i := le_trans (Nat.le_succ w2) hw2
    have hx : i - (w2 + 1) + 1 = i - w2 := by omega
    have hcons : sliceOf s (i - (w2 + 1)) i = s.getD (i - (w2 + 1)) 'A' :: sliceOf s (i - w2) i := by
      rw [sliceOf_cons (show i - (w2 + 1) < i by omega) (show i - (w2 + 1) < s.length by omega), hx]
    have hc0 : countOcc src (sliceOf s (i - w2) i) = 0 := ih hw2le
    show countOcc src (sliceOf s (i - (w2 + 1)) i) = 0
    rw [hcons]
    by_contra hne
    have := countOcc_cons_pos (Nat.pos_of_ne_zero hne)
    omega

/-! ### DP table bookkeeping -/

theorem dpTable_fst_length {σ : Type} (fm : FMIndex σ) (cm : CostModel) (s : List Char)
    (W : ℕ) : ∀ n, (dpTable fm cm s W n).1.length = n + 1 := by
  intro n
  induction n with
  | zero => rfl
  | succ n ih => simp [dpTable, ih]

theorem dpTable_snd_length {σ : Type} (fm : FMIndex σ) (cm : CostModel) (s : List Char)
    (W : ℕ) : ∀ n, (dpTable fm cm s W n).2.length = n + 1 := by
  intro n
  induction n with
  | zero => rfl
  | succ n ih => simp [dpTable, ih]

theorem dpTable_fst_getD {σ : Type} (fm : FMIndex σ) (cm : CostModel) (s : List Char)
    (W : ℕ) : ∀ n i, i ≤ n → (dpTable fm cm s W n).1.getD i sentinel = dpValAt fm cm s W i := by
  intro n
  induction n with
  | zero => intro i hi; have : i = 0 := by omega
            subst this; rfl
  | succ n ih =>
    intro i hi
    rcases Nat.lt_or_ge i (n + 1) with h | h
    · show ((dpTable fm cm s W n).1 ++ [_]).getD i sentinel = _
      rw [List.getD_append _ _ sentinel i (by rw [dpTable_fst_length]; omega)]
      exact ih i (by omega)
    · have : i = n + 1 := by omega
      subst this; rfl

theorem dpTable_snd_getD {σ : Type} (fm : FMIndex σ) (cm : CostModel) (s : List Char)
    (W : ℕ) : ∀ n i, i ≤ n → (dpTable fm cm s W n).2.getD i initChoice = dpChoiceAt fm cm s W i := by
  intro n
  induction n with
  | zero => intro i hi; have : i = 0 := by omega
            subst this; rfl
  | succ n ih =>
    intro i hi
    rcases Nat.lt_or_ge i (n + 1) with h | h
    · show ((dpTable fm cm s W n).2 ++ [_]).getD i initChoice = _
      rw [List.getD_append _ _ initChoice i (by rw [dpTable_snd_length]; omega)]
      exact ih i (by omega)
    · have : i = n + 1 := by omega
      subst this; rfl

theorem dpChoiceAt_zero {σ : Type} (fm : FMIndex σ) (cm : CostModel) (s : List Char)
    (W : ℕ) : dpChoiceAt fm cm s W 0 = initChoice := rfl

theorem dpValAt_zero {σ : Type} (fm : FMIndex σ) (cm : CostModel) (s : List Char)
    (W : ℕ) : dpValAt fm cm s W 0 = 0 := rfl

theorem dpChoiceAt_succ {σ : Type} (fm : FMIndex σ) (cm : CostModel) (s : List Char)
    (W n : ℕ) :
    dpChoiceAt fm cm s W (n + 1)
      = update_min_cost_for_i fm cm s
          (fun j => (dpTable fm cm s W n).1.getD j sentinel) (n + 1) W := by
  unfold dpChoiceAt
  show ((dpTable fm cm s W n).2 ++ [_]).getD (n + 1) initChoice = _
  rw [List.getD_eq_getElem?_getD, show n + 1 = (dpTable fm cm s W n).2.length by
    rw [dpTable_snd_length], List.getElem?_concat_length]
  rfl

theorem dpValAt_eq_choice_cost {σ : Type} (fm : FMIndex σ) (cm : CostModel) (s : List Char)
    (W n : ℕ) : dpValAt fm cm s W (n + 1) = (dpChoiceAt fm cm s W (n + 1)).cost := by
  unfold dpValAt
  rw [dpChoiceAt_succ]
  show ((dpTable fm cm s W n).1 ++ [_]).getD (n + 1) sentinel = _
  rw [List.getD_eq_getElem?_getD, show n + 1 = (dpTable fm cm s W n).1.length by
    rw [dpTable_fst_length], List.getElem?_concat_length]
  rfl

/-! ### The strict-minimum fold -/

theorem minFold_cost_le_init (pc : ℕ → ℚ) (cand : ℕ → Choice)
    (hc : ∀ w, (cand w).cost = pc w) :
    ∀ ws ch, (minFold pc cand ws ch).cost ≤ ch.cost := by
  intro ws
  induction ws with
  | nil => intro ch; exact le_refl _
  | cons w ws ih =>
    intro ch
    rw [minFold]
    by_cases h : pc w < ch.cost
    · rw [if_pos h]
      calc (minFold pc cand ws (cand w)).cost ≤ (cand w).cost := ih _
        _ = pc w := hc w
        _ ≤ ch.cost := le_of_lt h
    · rw [if_neg h]; exact ih ch

theorem minFold_cost_le (pc : ℕ → ℚ) (cand : ℕ → Choice)
    (hc : ∀ w, (cand w).cost = pc w) :
    ∀ ws ch w, w ∈ ws → (minFold pc cand ws ch).cost ≤ pc w := by
  intro ws
  induction ws with
  | nil => intro ch w hw; exact absurd hw (List.not_mem_nil w)
  | cons v ws ih =>
    intro ch w hw
    rw [minFold]
    rcases List.mem_cons.1 hw with rfl | hw2
    · by_cases h : pc w < ch.cost
      · rw [if_pos h]
        calc (minFold pc cand ws (cand w)).cost ≤ (cand w).cost :=
              minFold_cost_le_init pc cand hc ws (cand w)
          _ = pc w := hc w
      · rw [if_neg h]
        calc (minFold pc cand ws ch).cost ≤ ch.cost := minFold_cost_le_init pc cand hc ws ch
          _ ≤ pc w := not_lt.1 h
    · by_cases h : pc v < ch.cost
      · rw [if_pos h]; exact ih (cand v) w hw2
      · rw [if_neg h]; exact ih ch w hw2

theorem minFold_congr (pc pc2 : ℕ → ℚ) (cand cand2 : ℕ → Choice) :
    ∀ ws ch, (∀ w ∈ ws, pc w = pc2 w ∧ cand w = cand2 w) →
      minFold pc cand ws ch = minFold pc2 cand2 ws ch := by
  intro ws
  induction ws with
  | nil => intro ch _; rfl
  | cons w ws ih =>
    intro ch h
    obtain ⟨h1, h2⟩ := h w (List.mem_cons_self w ws)
    rw [minFold, minFold, h1, h2, ih _ (fun v hv => h v (List.mem_cons_of_mem w hv))]

theorem minFold_range'_char (pc : ℕ → ℚ) (cand : ℕ → Choice)
    (hc : ∀ w, (cand w).cost = pc w) :
    ∀ k a ch,
      (minFold pc cand (List.range' a k) ch = ch ∧
        ∀ w ∈ List.range' a k, ch.cost ≤ pc w)
      ∨ (∃ w0 ∈ List.range' a k, minFold pc cand (List.range' a k) ch = cand w0 ∧
          pc w0 < ch.cost ∧ (∀ w ∈ List.range' a k, pc w0 ≤ pc w) ∧
          (∀ w ∈ List.range' a k, w < w0 → pc w0 < pc w)) := by
  intro k
  induction k with
  | zero => intro a ch; left; exact ⟨rfl, by simp⟩
  | succ k ih =>
    intro a ch
    rw [List.range'_succ]
    rw [show minFold pc cand (a :: List.range' (a + 1) k) ch
        = minFold pc cand (List.range' (a + 1) k) (if pc a < ch.cost then cand a else ch)
      from rfl]
    by_cases h : pc a < ch.cost
    · rw [if_pos h]
      rcases ih (a + 1) (cand a) with ⟨heq, hall⟩ | ⟨w0, hmem, heq, hlt, hall, hfirst⟩
      · right
        refine ⟨a, List.mem_cons_self a _, heq, h, ?_, ?_⟩
        · intro w hw
          rcases List.mem_cons.1 hw with rfl | hw2
          · exact le_refl _
          · have := hall w hw2
            rwa [hc a] at this
        · intro w hw hlt2
          rcases List.mem_cons.1 hw with rfl | hw2
          · omega
          · rw [List.mem_range'_1] at hw2
            omega
      · right
        rw [hc a] at hlt
        refine ⟨w0, List.mem_cons_of_mem a hmem, heq, lt_trans hlt h, ?_, ?_⟩
        · intro w hw
          rcases List.mem_cons.1 hw with rfl | hw2
          · exact le_of_lt hlt
          · exact hall w hw2
        · intro w hw hlt2
          rcases List.mem_cons.1 hw with rfl | hw2
          · exact hlt
          · exact hfirst w hw2 hlt2
    · rw [if_neg h]
      rcases ih (a + 1) ch with ⟨heq, hall⟩ | ⟨w0, hmem, heq, hlt, hall, hfirst⟩
      · left
        refine ⟨heq, ?_⟩
        intro w hw
        rcases List.mem_cons.1 hw with rfl | hw2
        · exact not_lt.1 h
        · exact hall w hw2
      · right
        refine ⟨w0, List.mem_cons_of_mem a hmem, heq, hlt, ?_, ?_⟩
        · intro w hw
          rcases List.mem_cons.1 hw with rfl | hw2
          · exact le_of_lt (lt_of_lt_of_le hlt (not_lt.1 h))
          · exact hall w hw2
        · intro w hw hlt2
          rcases List.mem_cons.1 hw with rfl | hw2
          · exact lt_of_lt_of_le hlt (not_lt.1 h)
          · exact hfirst w hw2 hlt2

/-! ### The incremental path agrees with the fallback path -/

theorem naiveLoop_eq_minFold {σ : Type} (fm : FMIndex σ) (cm : CostModel) (s : List Char)
    (DPf : ℕ → ℚ) (i : ℕ) :
    ∀ ws ch, naiveLoop [fm] cm s DPf i ws ch
      = minFold (pcOf fm cm s DPf i) (chOf fm cm s DPf i) ws ch := by
  intro ws
  induction ws with
  | nil => intro ch; rfl
  | cons w ws ih =>
    intro ch
    rw [naiveLoop, minFold, ih]
    congr 1
    simp only [List.any_cons, List.any_nil, Bool.or_false, pcOf, chOf]
    by_cases h : 0 < fm.count (sliceOf s (i - w) i) <;> simp [h]

theorem synthLoop_eq_naiveLoop {σ : Type} (fm : FMIndex σ) (cm : CostModel) (s : List Char)
    (DPf : ℕ → ℚ) (i : ℕ) :
    ∀ ws ch, (∀ w ∈ ws, fm.count (sliceOf s (i - w) i) = 0) →
      synthLoop cm DPf i ws ch = naiveLoop [fm] cm s DPf i ws ch := by
  intro ws
  induction ws with
  | nil => intro ch _; rfl
  | cons w ws ih =>
    intro ch h
    have h0 := h w (List.mem_cons_self w ws)
    rw [synthLoop, naiveLoop, ih _ (fun v hv => h v (List.mem_cons_of_mem w hv))]
    congr 1
    simp [h0]

theorem incLoop_eq_naiveLoop {σ : Type} {fm : FMIndex σ} {cm : CostModel} {s : List Char}
    {W : ℕ} (hA : AgreeInc fm s W) (hB : MonoCount fm s W) {i : ℕ} (hi : i ≤ s.length)
    (DPf : ℕ → ℚ) :
    ∀ k w ch, 1 ≤ w → w + k ≤ min W i + 1 →
      incLoop fm cm s DPf i (extState fm s i (w - 1)) (List.range' w k) ch
        = naiveLoop [fm] cm s DPf i (List.range' w k) ch := by
  intro k
  induction k with
  | zero => intro w ch _ _; rfl
  | succ k ih =>
    intro w ch h1 hwk
    obtain ⟨v, rfl⟩ : ∃ v, w = v + 1 := ⟨w - 1, by omega⟩
    have hwmin : v + 1 ≤ min W i := by omega
    have hst : fm.extend (extState fm s i v) (s.getD (i - (v + 1)) 'A')
        = (extState fm s i (v + 1), extOcc fm s i (v + 1)) := by
      rw [extState, extOcc]
    have hAg := hA i hi (v + 1) hwmin (by omega)
    rw [List.range'_succ, incLoop, naiveLoop]
    simp only [Nat.add_sub_cancel, hst, List.any_cons, List.any_nil, Bool.or_false]
    by_cases hocc : extOcc fm s i (v + 1) = 0
    · rw [if_pos hocc]
      have hc0 : fm.count (sliceOf s (i - (v + 1)) i) = 0 := by
        by_contra hne
        have := hAg.2 (Nat.pos_of_ne_zero hne)
        omega
      have hkind : (decide (0 < extOcc fm s i (v + 1)))
          = (decide (0 < fm.count (sliceOf s (i - (v + 1)) i))) := by
        simp [hocc, hc0]
      rw [hkind]
      exact synthLoop_eq_naiveLoop fm cm s DPf i _ _ (fun w2 hw2 => by
        rw [List.mem_range'_1] at hw2
        exact hB i hi (v + 1) hwmin w2 (by omega) (by omega) hc0)
    · rw [if_neg hocc]
      have hcpos : 0 < fm.count (sliceOf s (i - (v + 1)) i) :=
        hAg.1 (Nat.pos_of_ne_zero hocc)
      have hkind : (decide (0 < extOcc fm s i (v + 1)))
          = (decide (0 < fm.count (sliceOf s (i - (v + 1)) i))) := by
        simp [Nat.pos_of_ne_zero hocc, hcpos]
      rw [hkind]
      exact ih (v + 2) _ (by omega) (by omega)

theorem update_eq_naive {σ : Type} {fm : FMIndex σ} {cm : CostModel} {s : List Char}
    {W : ℕ} (hA : AgreeInc fm s W) (hB : MonoCount fm s W) {i : ℕ} (hi : i ≤ s.length)
    (DPf : ℕ → ℚ) :
    update_min_cost_for_i fm cm s DPf i W = naive_update_for_i [fm] cm s DPf i W := by
  unfold update_min_cost_for_i naive_update_for_i
  have h := @incLoop_eq_naiveLoop σ fm cm s W hA hB i hi DPf (min W i) 1 initChoice
    (by omega) (by omega)
  exact h

theorem dpTable_eq_naive {σ : Type} {fm : FMIndex σ} {cm : CostModel} {s : List Char}
    {W : ℕ} (hA : AgreeInc fm s W) (hB : MonoCount fm s W) :
    ∀ n, n ≤ s.length → dpTable fm cm s W n = dpTableNaive [fm] cm s W n := by
  intro n
  induction n with
  | zero => intro _; rfl
  | succ n ih =>
    intro h
    rw [dpTable, dpTableNaive, ih (by omega), update_eq_naive hA hB (by omega)]

theorem dpChoiceAt_eq_naive {σ : Type} {fm : FMIndex σ} {cm : CostModel} {s : List Char}
    {W : ℕ} (hA : AgreeInc fm s W) (hB : MonoCount fm s W) {i : ℕ} (hi : i ≤ s.length) :
    dpChoiceAt fm cm s W i = dpChoiceNaiveAt [fm] cm s W i := by
  unfold dpChoiceAt dpChoiceNaiveAt
  rw [dpTable_eq_naive hA hB i hi]

theorem dpValAt_eq_naive {σ : Type} {fm : FMIndex σ} {cm : CostModel} {s : List Char}
    {W : ℕ} (hA : AgreeInc fm s W) (hB : MonoCount fm s W) {i : ℕ} (hi : i ≤ s.length) :
    dpValAt fm cm s W i = dpValNaiveAt [fm] cm s W i := by
  unfold dpValAt dpValNaiveAt
  rw [dpTable_eq_naive hA hB i hi]

theorem solve_eq_naive {σ : Type} {fm : FMIndex σ} {cm : CostModel} {s : List Char}
    {W : ℕ} (hA : AgreeInc fm s W) (hB : MonoCount fm s W) :
    solve_dp_for_chromosome [fm] cm s W = solve_dp_naive [fm] cm s W := by
  unfold solve_dp_for_chromosome solve_dp_naive
  by_cases h : s.length = 0
  · simp [h]
  · simp only [if_neg h]
    rw [dpTable_eq_naive hA hB s.length le_rfl]

/-! ### Characterisation of one DP step over the reference oracle -/

theorem dpChoiceAt_char (src : List Char) (cm : CostModel) (s : List Char) (W : ℕ)
    {i : ℕ} (h1 : 1 ≤ i) (hi : i ≤ s.length) :
    dpChoiceAt (strFM src) cm s W i
      = minFold (candCost (strFM src) cm s W i) (candCh (strFM src) cm s W i)
          (List.range' 1 (min W i)) initChoice := by
  obtain ⟨n, rfl⟩ : ∃ n, i = n + 1 := ⟨i - 1, by omega⟩
  rw [dpChoiceAt_succ, update_eq_naive (strFM_agree src s W) (strFM_mono src s W) hi]
  unfold naive_update_for_i
  rw [naiveLoop_eq_minFold]
  apply minFold_congr
  intro w hw
  rw [List.mem_range'_1] at hw
  have hD : (dpTable (strFM src) cm s W n).1.getD (n + 1 - w) sentinel
      = dpValAt (strFM src) cm s W (n + 1 - w) :=
    dpTable_fst_getD _ _ _ _ n (n + 1 - w) (by omega)
  constructor
  · simp only [candCost, pcOf, hD]
  · simp only [candCh, chOf, pcOf, hD]

theorem candCost_eq_block (src : List Char) (cm : CostModel) (s : List Char) (W i w : ℕ) :
    candCost (strFM src) cm s W i w
      = dpValAt (strFM src) cm s W (i - w)
        + (if occursIn src (sliceOf s (i - w) i) then cm.cost_pcr
           else cm.cost_synth_linear * (w : ℚ) + cm.cost_synth_quad * (w : ℚ) * (w : ℚ))
        + (if 0 < i - w then cm.cost_join else 0) := by
  unfold candCost pcOf
  by_cases h : 0 < countOcc src (sliceOf s (i - w) i)
  · simp [occursIn, h, strFM]
  · simp [occursIn, h, strFM]

theorem partCostAux_append (src : List Char) (cm : CostModel) (s : List Char) :
    ∀ l1 l2 pos, partCostAux src cm s pos (l1 ++ l2)
      = partCostAux src cm s pos l1 + partCostAux src cm s (pos + l1.sum) l2 := by
  intro l1
  induction l1 with
  | nil => intro l2 pos; simp [partCostAux]
  | cons w t ih =>
    intro l2 pos
    rw [List.cons_append, partCostAux, partCostAux, ih,
      List.sum_cons, show pos + (w + t.sum) = pos + w + t.sum by omega]
    ring

/-! ### The DP value is a lower bound on every partition cost -/

theorem dp_le_partition (src : List Char) (cm : CostModel) (s : List Char) (W : ℕ) :
    ∀ i, i ≤ s.length → ∀ lens, lens.sum = i → (∀ l ∈ lens, 1 ≤ l ∧ l ≤ W) →
      dpValAt (strFM src) cm s W i ≤ partCostAux src cm s 0 lens := by
  intro i
  induction i using Nat.strong_induction_on with
  | _ i ih =>
    intro hi lens hsum hbnd
    rcases Nat.eq_zero_or_pos i with rfl | hpos
    · have hnil : lens = [] := by
        cases lens with
        | nil => rfl
        | cons a t =>
          have h1 := hbnd a (List.mem_cons_self a t)
          have h2 : a + t.sum = 0 := by simpa using hsum
          omega
      subst hnil
      simp [partCostAux, dpValAt_zero]
    · rcases List.eq_nil_or_concat lens with rfl | ⟨ls, w, rfl⟩
      · simp at hsum; omega
      · rw [List.concat_eq_append] at hsum hbnd ⊢
        have hw := hbnd w (by simp)
        have hsum2 : ls.sum + w = i := by simpa using hsum
        have hle := ih (i - w) (by omega) (by omega) ls (by omega)
          (fun l hl => hbnd l (by simp [hl]))
        have hsplit : partCostAux src cm s 0 (ls ++ [w])
            = partCostAux src cm s 0 ls + partCostAux src cm s ls.sum [w] := by
          have h := partCostAux_append src cm s ls [w] 0
          simpa using h
        have hcand : dpValAt (strFM src) cm s W i ≤ candCost (strFM src) cm s W i w := by
          obtain ⟨n, rfl⟩ : ∃ n, i = n + 1 := ⟨i - 1, by omega⟩
          rw [dpValAt_eq_choice_cost, dpChoiceAt_char src cm s W (by omega) hi]
          apply minFold_cost_le (candCost (strFM src) cm s W (n + 1))
            (candCh (strFM src) cm s W (n + 1)) (fun v => rfl) _ initChoice w
          rw [List.mem_range'_1]
          omega
        have hls : ls.sum = i - w := by omega
        have hiw : i - w + w = i := by omega
        calc dpValAt (strFM src) cm s W i
            ≤ candCost (strFM src) cm s W i w := hcand
          _ = dpValAt (strFM src) cm s W (i - w)
              + (if occursIn src (sliceOf s (i - w) i) then cm.cost_pcr
                 else cm.cost_synth_linear * (w : ℚ)
                   + cm.cost_synth_quad * (w : ℚ) * (w : ℚ))
              + (if 0 < i - w then cm.cost_join else 0) := candCost_eq_block src cm s W i w
          _ ≤ partCostAux src cm s 0 ls
              + (if occursIn src (sliceOf s (i - w) i) then cm.cost_pcr
                 else cm.cost_synth_linear * (w : ℚ)
                   + cm.cost_synth_quad * (w : ℚ) * (w : ℚ))
              + (if 0 < i - w then cm.cost_join else 0) := by linarith [hle]
          _ = partCostAux src cm s 0 (ls ++ [w]) := by
              rw [hsplit, partCostAux, partCostAux, hls, hiw]
              ring

/-! ### Reachability of the DP states below the 1e18 sentinel -/

theorem partCost_ones_le (src : List Char) (cm : CostModel) (s : List Char)
    (hj : 0 ≤ cm.cost_join) :
    ∀ k pos, partCostAux src cm s pos (List.replicate k 1)
      ≤ (k : ℚ) * (maxBlock1 cm + cm.cost_join) := by
  intro k
  induction k with
  | zero => intro pos; simp [partCostAux]
  | succ k ih =>
    intro pos
    rw [List.replicate_succ, partCostAux]
    have h1 : (if 0 < pos then cm.cost_join else 0) ≤ cm.cost_join := by
      split
      · exact le_refl _
      · exact hj
    have h2 : (if occursIn src (sliceOf s pos (pos + 1)) then cm.cost_pcr
        else cm.cost_synth_linear * ((1 : ℕ) : ℚ)
          + cm.cost_synth_quad * ((1 : ℕ) : ℚ) * ((1 : ℕ) : ℚ)) ≤ maxBlock1 cm := by
      split
      · exact le_max_left _ _
      · calc cm.cost_synth_linear * ((1 : ℕ) : ℚ)
              + cm.cost_synth_quad * ((1 : ℕ) : ℚ) * ((1 : ℕ) : ℚ)
            = cm.cost_synth_linear + cm.cost_synth_quad := by push_cast; ring
          _ ≤ maxBlock1 cm := le_max_right _ _
    have h3 := ih (pos + 1)
    push_cast
    push_cast at h1 h2 h3
    linarith

theorem dpVal_le_linear (src : List Char) (cm : CostModel) (s : List Char) (W : ℕ)
    (hW : 1 ≤ W) (hj : 0 ≤ cm.cost_join) :
    ∀ i, i ≤ s.length →
      dpValAt (strFM src) cm s W i ≤ (i : ℚ) * (maxBlock1 cm + cm.cost_join) := by
  intro i hi
  calc dpValAt (strFM src) cm s W i ≤ partCostAux src cm s 0 (List.replicate i 1) :=
      dp_le_partition src cm s W i hi (List.replicate i 1)
        (by simp [List.sum_replicate, smul_eq_mul])
        (fun l hl => by
          rw [List.eq_of_mem_replicate hl]
          omega)
    _ ≤ _ := partCost_ones_le src cm s hj i 0

theorem dp_choice_found (src : List Char) (cm : CostModel) (s : List Char) (W : ℕ)
    (hW : 1 ≤ W) (hp : 0 ≤ cm.cost_pcr) (hj : 0 ≤ cm.cost_join)
    (hU : (s.length : ℚ) * (maxBlock1 cm + cm.cost_join) < sentinel) :
    ∀ i, 1 ≤ i → i ≤ s.length →
      ∃ w0, 1 ≤ w0 ∧ w0 ≤ min W i ∧
        dpChoiceAt (strFM src) cm s W i = candCh (strFM src) cm s W i w0 ∧
        dpValAt (strFM src) cm s W i = candCost (strFM src) cm s W i w0 ∧
        candCost (strFM src) cm s W i w0 < sentinel ∧
        (∀ w, 1 ≤ w → w ≤ min W i →
          candCost (strFM src) cm s W i w0 ≤ candCost (strFM src) cm s W i w) ∧
        (∀ w, 1 ≤ w → w < w0 →
          candCost (strFM src) cm s W i w0 < candCost (strFM src) cm s W i w) := by
  intro i h1 hi
  have hXnn : 0 ≤ maxBlock1 cm + cm.cost_join := by
    have hmb : (0 : ℚ) ≤ maxBlock1 cm := le_trans hp (le_max_left _ _)
    linarith
  have hc1lt : candCost (strFM src) cm s W i 1 < sentinel := by
    rw [candCost_eq_block]
    have hd := dpVal_le_linear src cm s W hW hj (i - 1) (by omega)
    have hblock : (if occursIn src (sliceOf s (i - 1) i) then cm.cost_pcr
        else cm.cost_synth_linear * ((1 : ℕ) : ℚ)
          + cm.cost_synth_quad * ((1 : ℕ) : ℚ) * ((1 : ℕ) : ℚ)) ≤ maxBlock1 cm := by
      split
      · exact le_max_left _ _
      · calc cm.cost_synth_linear * ((1 : ℕ) : ℚ)
              + cm.cost_synth_quad * ((1 : ℕ) : ℚ) * ((1 : ℕ) : ℚ)
            = cm.cost_synth_linear + cm.cost_synth_quad := by push_cast; ring
          _ ≤ maxBlock1 cm := le_max_right _ _
    have hjoin : (if 0 < i - 1 then cm.cost_join else 0) ≤ cm.cost_join := by
      split
      · exact le_refl _
      · exact hj
    have hcast : ((i - 1 : ℕ) : ℚ) = (i : ℚ) - 1 := by
      rw [Nat.cast_sub h1, Nat.cast_one]
    have hNi : (i : ℚ) ≤ (s.length : ℚ) := by exact_mod_cast hi
    have hmul : (i : ℚ) * (maxBlock1 cm + cm.cost_join)
        ≤ (s.length : ℚ) * (maxBlock1 cm + cm.cost_join) :=
      mul_le_mul_of_nonneg_right hNi hXnn
    rw [hcast] at hd
    nlinarith [hd, hblock, hjoin, hmul, hU]
  rcases minFold_range'_char (candCost (strFM src) cm s W i) (candCh (strFM src) cm s W i)
      (fun v => rfl) (min W i) 1 initChoice with ⟨heq, hall⟩ | ⟨w0, hmem, heq, hlt, hall, hfirst⟩
  · exfalso
    have h1mem : (1 : ℕ) ∈ List.range' 1 (min W i) := by
      rw [List.mem_range'_1]
      omega
    have hge := hall 1 h1mem
    have hic : initChoice.cost = sentinel := rfl
    rw [hic] at hge
    linarith
  · rw [List.mem_range'_1] at hmem
    have hchar := dpChoiceAt_char src cm s W h1 hi
    have h1mem : (1 : ℕ) ∈ List.range' 1 (min W i) := by
      rw [List.mem_range'_1]
      omega
    have hvc : dpValAt (strFM src) cm s W i = candCost (strFM src) cm s W i w0 := by
      obtain ⟨n, rfl⟩ : ∃ n, i = n + 1 := ⟨i - 1, by omega⟩
      rw [dpValAt_eq_choice_cost, hchar, heq]
      rfl
    refine ⟨w0, by omega, by omega, by rw [hchar, heq], hvc, ?_, ?_, ?_⟩
    · exact lt_of_le_of_lt (hall 1 h1mem) hc1lt
    · intro w hw1 hwm
      exact hall w (by rw [List.mem_range'_1]; omega)
    · intro w hw1 hww
      exact hfirst w (by rw [List.mem_range'_1]; omega) hww

/-! ### Backtracking reconstructs a valid partition achieving `DP[N]` -/

theorem blocksOfLens_append (src s : List Char) :
    ∀ l1 l2 pos, blocksOfLens src s pos (l1 ++ l2)
      = blocksOfLens src s pos l1 ++ blocksOfLens src s (pos + l1.sum) l2 := by
  intro l1
  induction l1 with
  | nil => intro l2 pos; simp [blocksOfLens]
  | cons w t ih =>
    intro l2 pos
    rw [List.cons_append, blocksOfLens, blocksOfLens, ih,
      List.sum_cons, show pos + (w + t.sum) = pos + w + t.sum by omega, List.cons_append]

theorem blocksOfLens_map_blen (src s : List Char) :
    ∀ lens pos, (blocksOfLens src s pos lens).map (fun b => b.blen) = lens := by
  intro lens
  induction lens with
  | nil => intro pos; rfl
  | cons w t ih => intro pos; simp [blocksOfLens, ih]

theorem blocksOfLens_map_interval (src s : List Char) :
    ∀ lens pos, (blocksOfLens src s pos lens).map (fun b => (b.bstart, b.bend))
      = intervalsOf pos lens := by
  intro lens
  induction lens with
  | nil => intro pos; rfl
  | cons w t ih => intro pos; simp [blocksOfLens, intervalsOf, ih]

theorem blocksOfLens_length (src s : List Char) :
    ∀ lens pos, (blocksOfLens src s pos lens).length = lens.length := by
  intro lens
  induction lens with
  | nil => intro pos; rfl
  | cons w t ih => intro pos; simp [blocksOfLens, ih]

theorem backtrackAux_zero (chs : List Choice) : ∀ fuel, backtrackAux chs fuel 0 = [] := by
  intro fuel
  cases fuel with
  | zero => rfl
  | succ fuel => simp [backtrackAux]

theorem backtrack_spec (src : List Char) (cm : CostModel) (s : List Char) (W : ℕ)
    (hW : 1 ≤ W) (hW16 : W < 65536) (hp : 0 ≤ cm.cost_pcr) (hj : 0 ≤ cm.cost_join)
    (hU : (s.length : ℚ) * (maxBlock1 cm + cm.cost_join) < sentinel) :
    ∀ cur, cur ≤ s.length → ∀ fuel, cur ≤ fuel →
      ∃ lens, lens.sum = cur ∧ (∀ l ∈ lens, 1 ≤ l ∧ l ≤ W) ∧
        (backtrackAux (dpTable (strFM src) cm s W s.length).2 fuel cur).reverse
          = blocksOfLens src s 0 lens ∧
        partCostAux src cm s 0 lens = dpValAt (strFM src) cm s W cur := by
  intro cur
  induction cur using Nat.strong_induction_on with
  | _ cur ih =>
    intro hcur fuel hfuel
    rcases Nat.eq_zero_or_pos cur with rfl | hpos
    · exact ⟨[], rfl, by simp, by rw [backtrackAux_zero]; rfl, by
        rw [dpValAt_zero]; rfl⟩
    · obtain ⟨w0, h1w, hwmin, hcheq, hveq, hlt, hmin, hfirst⟩ :=
        dp_choice_found src cm s W hW hp hj hU cur hpos hcur
      obtain ⟨f, rfl⟩ : ∃ f, fuel = f + 1 := ⟨fuel - 1, by omega⟩
      have hw0W : w0 ≤ W := le_trans hwmin (min_le_left _ _)
      have hw0cur : w0 ≤ cur := le_trans hwmin (min_le_right _ _)
      have hlen : (candCh (strFM src) cm s W cur w0).len = w0 := by
        show w0 % 65536 = w0
        exact Nat.mod_eq_of_lt (by omega)
      have hpred : (candCh (strFM src) cm s W cur w0).pred = ((cur - w0 : ℕ) : Int) := rfl
      have hgd : (dpTable (strFM src) cm s W s.length).2.getD cur initChoice
          = candCh (strFM src) cm s W cur w0 := by
        rw [dpTable_snd_getD _ _ _ _ s.length cur hcur, hcheq]
      rw [backtrackAux, if_neg (by omega)]
      rw [hgd]
      rw [if_neg (by
        rw [hlen, hpred]
        push_neg
        exact ⟨by omega, by omega⟩)]
      rw [hlen, hpred]
      rw [show ((cur - w0 : ℕ) : Int).toNat = cur - w0 from Int.toNat_natCast _]
      obtain ⟨lens, hsum, hbnd, hrev, hcost⟩ := ih (cur - w0) (by omega) (by omega) f (by omega)
      refine ⟨lens ++ [w0], by simp [hsum]; omega, ?_, ?_, ?_⟩
      · intro l hl
        rcases List.mem_append.1 hl with hl2 | hl2
        · exact hbnd l hl2
        · rw [List.mem_singleton.1 hl2]
          omega
      · rw [List.reverse_cons, hrev, blocksOfLens_append, hsum]
        have hkind : (candCh (strFM src) cm s W cur w0).isReuse
            = occursIn src (sliceOf s (cur - w0) cur) := rfl
        rw [hkind, zero_add, blocksOfLens, blocksOfLens,
          show cur - w0 + w0 = cur by omega]
      · rw [partCostAux_append, hsum, hcost, hveq, zero_add, partCostAux, partCostAux,
          show cur - w0 + w0 = cur by omega, candCost_eq_block]
        ring

/-! ### Unfolding the solvers -/

theorem solve_dp_eq {σ : Type} (fm : FMIndex σ) (cm : CostModel) (s : List Char) (W : ℕ)
    (h : s.length ≠ 0) :
    solve_dp_for_chromosome [fm] cm s W
      = statsOfBacktrack (dpValAt fm cm s W s.length) s.length
          (backtrackAux (dpTable fm cm s W s.length).2 s.length s.length) := by
  simp only [solve_dp_for_chromosome]
  rw [if_neg h]
  rfl

theorem dp_blocks_eq {σ : Type} (fm : FMIndex σ) (cm : CostModel) (s : List Char) (W : ℕ)
    (h : s.length ≠ 0) :
    dp_blocks [fm] cm s W = backtrackAux (dpTable fm cm s W s.length).2 s.length s.length := by
  simp only [dp_blocks]
  rw [if_neg h]

theorem solve_greedy_eq {σ : Type} (indexes : List (FMIndex σ)) (cm : CostModel)
    (s : List Char) (W : ℕ) (h : s.length ≠ 0) :
    solve_greedy_for_chromosome_stats indexes cm s W
      = { greedyAux indexes cm s W s.length s.length 0 zeroStats with
          joins := if 0 < (greedyAux indexes cm s W s.length s.length 0 zeroStats).segments
            then (greedyAux indexes cm s W s.length s.length 0 zeroStats).segments - 1 else 0,
          length := s.length } := by
  simp only [solve_greedy_for_chromosome_stats]
  rw [if_neg h]

/-! ### Statistics bookkeeping -/

theorem blocks_filter_length (bs : List Block) :
    (bs.filter (fun b => b.breuse)).length + (bs.filter (fun b => !b.breuse)).length
      = bs.length := by
  induction bs with
  | nil => rfl
  | cons b t ih =>
    cases hb : b.breuse <;> simp [List.filter_cons, hb] <;> omega

theorem blocks_bases_split (bs : List Block) :
    ((bs.filter (fun b => b.breuse)).map (fun b => b.blen)).sum
      + ((bs.filter (fun b => !b.breuse)).map (fun b => b.blen)).sum
      = (bs.map (fun b => b.blen)).sum := by
  induction bs with
  | nil => rfl
  | cons b t ih =>
    cases hb : b.breuse <;> simp [List.filter_cons, hb] <;> omega

/-! ### Greedy planner: candidate scan and block trace -/

theorem query_kmer_single (src kmer : List Char) :
    query_kmer kmer [strFM src] = occursIn src kmer := by
  simp [query_kmer, occursIn, strFM]

theorem find_best_w_le {σ : Type} (indexes : List (FMIndex σ)) (s : List Char) (i : ℕ) :
    ∀ m, find_best_w indexes s i m ≤ m := by
  intro m
  induction m with
  | zero => exact le_refl 0
  | succ m ih =>
    rw [find_best_w]
    split
    · exact le_refl _
    · omega

theorem find_best_w_spec {σ : Type} (indexes : List (FMIndex σ)) (s : List Char) (i : ℕ) :
    ∀ m, (find_best_w indexes s i m = 0 ∧
          ∀ w, 1 ≤ w → w ≤ m → query_kmer (sliceOf s i (i + w)) indexes = false)
      ∨ (1 ≤ find_best_w indexes s i m ∧ find_best_w indexes s i m ≤ m ∧
         query_kmer (sliceOf s i (i + find_best_w indexes s i m)) indexes = true ∧
         ∀ w, find_best_w indexes s i m < w → w ≤ m →
           query_kmer (sliceOf s i (i + w)) indexes = false) := by
  intro m
  induction m with
  | zero => left; exact ⟨rfl, fun w hw1 hw2 => by omega⟩
  | succ m ih =>
    rw [find_best_w]
    by_cases h : query_kmer (sliceOf s i (i + (m + 1))) indexes = true
    · right
      rw [if_pos h]
      exact ⟨by omega, le_refl _, h, fun w hw1 hw2 => by omega⟩
    · rw [if_neg h]
      have hfalse : query_kmer (sliceOf s i (i + (m + 1))) indexes = false :=
        Bool.not_eq_true _ ▸ eq_false_of_ne_true h
      rcases ih with ⟨h0, hall⟩ | ⟨h1, h2, h3, h4⟩
      · left
        refine ⟨h0, fun w hw1 hw2 => ?_⟩
        rcases Nat.lt_or_ge w (m + 1) with hlt | hge
        · exact hall w hw1 (by omega)
        · have : w = m + 1 := by omega
          subst this
          exact hfalse
      · right
        refine ⟨h1, by omega, h3, fun w hw1 hw2 => ?_⟩
        rcases Nat.lt_or_ge w (m + 1) with hlt | hge
        · exact h4 w hw1 (by omega)
        · have : w = m + 1 := by omega
          subst this
          exact hfalse

theorem greedyAux_eq_accPlus {σ : Type} (indexes : List (FMIndex σ)) (cm : CostModel)
    (s : List Char) (W N : ℕ) :
    ∀ fuel i acc, greedyAux indexes cm s W N fuel i acc
      = accPlus cm acc (greedyBlocksAux indexes s W N fuel i) := by
  intro fuel
  induction fuel with
  | zero => intro i acc; rfl
  | succ fuel ih =>
    intro i acc
    rw [greedyAux, greedyBlocksAux]
    by_cases hi : i < N
    · rw [if_pos hi, if_pos hi]
      by_cases hb : 0 < find_best_w indexes s i (min W (N - i))
      · rw [if_pos hb, if_pos hb, ih, accPlus]
        congr 1
      · rw [if_neg hb, if_neg hb, ih, accPlus]
        congr 1
    · rw [if_neg hi, if_neg hi]
      rfl

theorem greedyBlocksAux_spec (src s : List Char) (W N : ℕ) (hW : 1 ≤ W)
    (hN : N ≤ s.length) :
    ∀ fuel i, N - i ≤ fuel → i ≤ N →
      ∃ lens, lens.sum + i = N ∧ (∀ l ∈ lens, 1 ≤ l ∧ l ≤ W) ∧
        greedyBlocksAux [strFM src] s W N fuel i = blocksOfLens src s i lens := by
  intro fuel
  induction fuel with
  | zero =>
    intro i hf hi
    have : i = N := by omega
    subst this
    exact ⟨[], by simp, by simp, by rw [greedyBlocksAux, blocksOfLens]⟩
  | succ fuel ih =>
    intro i hf hi
    by_cases hlt : i < N
    · rw [greedyBlocksAux, if_pos hlt]
      rcases find_best_w_spec [strFM src] s i (min W (N - i)) with ⟨h0, hall⟩ | ⟨h1, h2, h3, h4⟩
      · rw [if_neg (by omega)]
        obtain ⟨lens, hsum, hbnd, heq⟩ := ih (i + 1) (by omega) (by omega)
        refine ⟨1 :: lens, by simp; omega, ?_, ?_⟩
        · intro l hl
          rcases List.mem_cons.1 hl with rfl | hl2
          · omega
          · exact hbnd l hl2
        · rw [blocksOfLens, heq]
          have hocc : occursIn src (sliceOf s i (i + 1)) = false := by
            have := hall 1 (by omega) (by omega)
            rwa [query_kmer_single] at this
          rw [hocc]
      · rw [if_pos (show 0 < find_best_w [strFM src] s i (min W (N - i)) from h1)]
        obtain ⟨lens, hsum, hbnd, heq⟩ :=
          ih (i + find_best_w [strFM src] s i (min W (N - i)))
            (by omega) (by omega)
        refine ⟨find_best_w [strFM src] s i (min W (N - i)) :: lens, by simp; omega, ?_, ?_⟩
        · intro l hl
          rcases List.mem_cons.1 hl with rfl | hl2
          · have := min_le_left W (N - i)
            omega
          · exact hbnd l hl2
        · rw [blocksOfLens, heq]
          have hocc : occursIn src
              (sliceOf s i (i + find_best_w [strFM src] s i (min W (N - i)))) = true := by
            rwa [query_kmer_single] at h3
          rw [hocc]
    · rw [greedyBlocksAux, if_neg hlt]
      have : i = N := by omega
      subst this
      exact ⟨[], by simp, by simp, by rw [blocksOfLens]⟩

theorem accPlus_segments (cm : CostModel) :
    ∀ bs acc, (accPlus cm acc bs).segments = acc.segments + bs.length := by
  intro bs
  induction bs with
  | nil => intro acc; rfl
  | cons b t ih =>
    intro acc
    rw [accPlus, ih]
    show acc.segments + 1 + t.length = acc.segments + (t.length + 1)
    omega

theorem accPlus_moves (cm : CostModel) :
    ∀ bs acc, (accPlus cm acc bs).reuse_moves + (accPlus cm acc bs).synth_moves
      = acc.reuse_moves + acc.synth_moves + bs.length := by
  intro bs
  induction bs with
  | nil => intro acc; rfl
  | cons b t ih =>
    intro acc
    rw [accPlus, ih]
    cases hb : b.breuse <;> simp [hb] <;> omega

theorem accPlus_bases (cm : CostModel) :
    ∀ bs acc, (accPlus cm acc bs).reuse_bases + (accPlus cm acc bs).synth_bases
      = acc.reuse_bases + acc.synth_bases + (bs.map (fun b => b.blen)).sum := by
  intro bs
  induction bs with
  | nil => intro acc; simp [accPlus]
  | cons b t ih =>
    intro acc
    rw [accPlus, ih]
    cases hb : b.breuse <;> simp [hb] <;> omega

theorem accPlus_cost_blocks (src : List Char) (cm : CostModel) (s : List Char) :
    ∀ lens pos acc, (accPlus cm acc (blocksOfLens src s pos lens)).cost
      = acc.cost + partCostAux src cm s pos lens := by
  intro lens
  induction lens with
  | nil => intro pos acc; simp [blocksOfLens, accPlus, partCostAux]
  | cons w t ih =>
    intro pos acc
    rw [blocksOfLens, accPlus, ih, partCostAux]
    show acc.cost + (if 0 < pos then cm.cost_join else 0)
        + (if occursIn src (sliceOf s pos (pos + w)) then cm.cost_pcr
           else cost_synth_nonlinear w cm.cost_synth_linear cm.cost_synth_quad)
        + partCostAux src cm s (pos + w) t = _
    unfold cost_synth_nonlinear
    ring

/-! ### Claim theorems -/

/-- C8: A zero-length sequence is not an error: both planners return the
all-zero result (cost 0, 0 segments, 0 joins, all counters 0, length 0), an
empty record is skipped by the per-record aggregation loop yet contributes
exactly zero to every run total (inserting it anywhere leaves the totals
unchanged), and the planners are total functions of their inputs — the model
captures the no-throw contract by construction. -/
theorem c8_empty_input {σ : Type} (indexes : List (FMIndex σ)) (cm : CostModel) (W : ℕ)
    (solver : List Char → PlannerStats) (rs1 rs2 : List (List Char)) :
    solve_dp_for_chromosome indexes cm [] W = zeroStats ∧
    solve_greedy_for_chromosome_stats indexes cm [] W = zeroStats ∧
    run_totals solver (rs1 ++ [] :: rs2) = run_totals solver (rs1 ++ rs2) := by
  refine ⟨rfl, rfl, ?_⟩
  unfold run_totals
  rw [List.foldl_append, List.foldl_append, List.foldl_cons]
  simp

/-- C9: On the concrete scenario (target "ACGT", source "TTTT", W = 4,
cost_pcr = 5, cost_join = 1, cost_synth_linear = 1, cost_synth_quad = 0) the
DP planner reports total cost 4 and its backtracking reconstructs exactly one
synthesis block covering [0, 4). -/
theorem c9_acgt_scenario :
    (solve_dp_for_chromosome [strFM ['T','T','T','T']] ⟨5, 1, 1, 0⟩
        ['A','C','G','T'] 4).cost = 4 ∧
    dp_blocks [strFM ['T','T','T','T']] ⟨5, 1, 1, 0⟩ ['A','C','G','T'] 4
      = [⟨0, 4, 4, false⟩] ∧
    (solve_dp_for_chromosome [strFM ['T','T','T','T']] ⟨5, 1, 1, 0⟩
        ['A','C','G','T'] 4).segments = 1 := by
  refine ⟨?_, ?_, ?_⟩ <;> with_unfolding_all rfl

/-- C2: For a single oracle whose incremental backward-extension answers
agree (on emptiness) with its one-shot substring counts, and whose one-shot
answers are monotone under backward extension, the incremental fast path of
the DP sweep records for every position exactly the same minimum cost,
predecessor, chosen length and chosen kind as the naive fallback path that
issues one independent one-shot query per candidate length; consequently the
two paths return identical PlannerStats. -/
theorem c2_inc_eq_naive {σ : Type} (fm : FMIndex σ) (cm : CostModel) (s : List Char)
    (W : ℕ) (hA : AgreeInc fm s W) (hB : MonoCount fm s W) :
    (∀ i, i ≤ s.length → dpChoiceAt fm cm s W i = dpChoiceNaiveAt [fm] cm s W i) ∧
    (∀ i, i ≤ s.length → dpValAt fm cm s W i = dpValNaiveAt [fm] cm s W i) ∧
    solve_dp_for_chromosome [fm] cm s W = solve_dp_naive [fm] cm s W :=
  ⟨fun i hi => dpChoiceAt_eq_naive hA hB hi,
   fun i hi => dpValAt_eq_naive hA hB hi,
   solve_eq_naive hA hB⟩

/-- Witness for C2 at a concrete oracle and sequence. -/
theorem c2_inc_eq_naive_witness :
    AgreeInc (strFM ['T','T']) ['A','T'] 2 ∧ MonoCount (strFM ['T','T']) ['A','T'] 2 ∧
    ((∀ i, i ≤ (['A','T'] : List Char).length →
        dpChoiceAt (strFM ['T','T']) ⟨5, 1, 1, 0⟩ ['A','T'] 2 i
          = dpChoiceNaiveAt [strFM ['T','T']] ⟨5, 1, 1, 0⟩ ['A','T'] 2 i) ∧
     (∀ i, i ≤ (['A','T'] : List Char).length →
        dpValAt (strFM ['T','T']) ⟨5, 1, 1, 0⟩ ['A','T'] 2 i
          = dpValNaiveAt [strFM ['T','T']] ⟨5, 1, 1, 0⟩ ['A','T'] 2 i) ∧
     solve_dp_for_chromosome [strFM ['T','T']] ⟨5, 1, 1, 0⟩ ['A','T'] 2
       = solve_dp_naive [strFM ['T','T']] ⟨5, 1, 1, 0⟩ ['A','T'] 2) :=
  ⟨strFM_agree ['T','T'] ['A','T'] 2, strFM_mono ['T','T'] ['A','T'] 2,
   c2_inc_eq_naive (strFM ['T','T']) ⟨5, 1, 1, 0⟩ ['A','T'] 2
     (strFM_agree ['T','T'] ['A','T'] 2) (strFM_mono ['T','T'] ['A','T'] 2)⟩

/-- C3: Optimality dominance: on the same sequence, source oracle, cost model
and W, the DP planner's reported total cost never exceeds the greedy
planner's reported total cost. -/
theorem c3_dp_le_greedy (src s : List Char) (cm : CostModel) (W : ℕ)
    (hW : 1 ≤ W) (hp : 0 ≤ cm.cost_pcr) (hj : 0 ≤ cm.cost_join)
    (hl : 0 ≤ cm.cost_synth_linear) (hq : 0 ≤ cm.cost_synth_quad) :
    (solve_dp_for_chromosome [strFM src] cm s W).cost
      ≤ (solve_greedy_for_chromosome_stats [strFM src] cm s W).cost := by
  by_cases h0 : s.length = 0
  · simp [solve_dp_for_chromosome, solve_greedy_for_chromosome_stats, h0]
  · obtain ⟨lens, hsum, hbnd, heq⟩ :=
      greedyBlocksAux_spec src s W s.length hW le_rfl s.length 0 (by omega) (by omega)
    have hgc : (solve_greedy_for_chromosome_stats [strFM src] cm s W).cost
        = partCostAux src cm s 0 lens := by
      rw [solve_greedy_eq _ _ _ _ h0]
      show (greedyAux [strFM src] cm s W s.length s.length 0 zeroStats).cost = _
      rw [greedyAux_eq_accPlus, heq, accPlus_cost_blocks]
      show 0 + _ = _
      rw [zero_add]
    have hdc : (solve_dp_for_chromosome [strFM src] cm s W).cost
        = dpValAt (strFM src) cm s W s.length := by
      rw [solve_dp_eq _ _ _ _ h0]
      rfl
    rw [hdc, hgc]
    exact dp_le_partition src cm s W s.length le_rfl lens (by omega) hbnd

/-- Witness for C3 at a concrete instance. -/
theorem c3_dp_le_greedy_witness :
    (1 ≤ 2) ∧ ((0:ℚ) ≤ 5) ∧ ((0:ℚ) ≤ 1) ∧ ((0:ℚ) ≤ 1) ∧ ((0:ℚ) ≤ 0) ∧
    (solve_dp_for_chromosome [strFM ['A']] ⟨5, 1, 1, 0⟩ ['A','C'] 2).cost
      ≤ (solve_greedy_for_chromosome_stats [strFM ['A']] ⟨5, 1, 1, 0⟩ ['A','C'] 2).cost :=
  ⟨of_decide_eq_true (by with_unfolding_all rfl),
   of_decide_eq_true (by with_unfolding_all rfl),
   of_decide_eq_true (by with_unfolding_all rfl),
   of_decide_eq_true (by with_unfolding_all rfl),
   of_decide_eq_true (by with_unfolding_all rfl),
   c3_dp_le_greedy ['A'] ['A','C'] ⟨5, 1, 1, 0⟩ 2
     (of_decide_eq_true (by with_unfolding_all rfl))
     (of_decide_eq_true (by with_unfolding_all rfl))
     (of_decide_eq_true (by with_unfolding_all rfl))
     (of_decide_eq_true (by with_unfolding_all rfl))
     (of_decide_eq_true (by with_unfolding_all rfl))⟩

/-- Per-block characterisation of the greedy policy. -/
theorem greedyBlocksAux_policy (src s : List Char) (W N : ℕ) :
    ∀ fuel i, ∀ b ∈ greedyBlocksAux [strFM src] s W N fuel i,
      b.bend = b.bstart + b.blen ∧ 1 ≤ b.blen ∧
      (b.breuse = true →
        (occursIn src (sliceOf s b.bstart b.bend) = true ∧
         b.blen ≤ min W (N - b.bstart) ∧
         ∀ w, b.blen < w → w ≤ min W (N - b.bstart) →
           occursIn src (sliceOf s b.bstart (b.bstart + w)) = false)) ∧
      (b.breuse = false →
        (b.blen = 1 ∧
         ∀ w, 1 ≤ w → w ≤ min W (N - b.bstart) →
           occursIn src (sliceOf s b.bstart (b.bstart + w)) = false)) := by
  intro fuel
  induction fuel with
  | zero => intro i b hb; exact absurd hb (List.not_mem_nil b)
  | succ fuel ih =>
    intro i b hb
    rw [greedyBlocksAux] at hb
    by_cases hlt : i < N
    · rw [if_pos hlt] at hb
      rcases find_best_w_spec [strFM src] s i (min W (N - i)) with ⟨h0, hall⟩ | ⟨h1, h2, h3, h4⟩
      · rw [if_neg (by omega)] at hb
        rcases List.mem_cons.1 hb with rfl | hb2
        · refine ⟨rfl, le_refl 1, ?_, ?_⟩
          · intro hcontra; exact absurd hcontra (by simp)
          · intro hfalse
            refine ⟨rfl, fun w hw1 hw2 => ?_⟩
            have := hall w hw1 hw2
            rwa [query_kmer_single] at this
        · exact ih (i + 1) b hb2
      · rw [if_pos (show 0 < find_best_w [strFM src] s i (min W (N - i)) from h1)] at hb
        rcases List.mem_cons.1 hb with rfl | hb2
        · refine ⟨rfl, h1, ?_, ?_⟩
          · intro htrue
            refine ⟨by rwa [query_kmer_single] at h3, h2, fun w hw1 hw2 => ?_⟩
            have := h4 w hw1 hw2
            rwa [query_kmer_single] at this
          · intro hcontra; exact absurd hcontra (by simp)
        · exact ih (i + find_best_w [strFM src] s i (min W (N - i))) b hb2
    · rw [if_neg hlt] at hb
      exact absurd hb (List.not_mem_nil b)

/-- C4: the greedy planner always chooses, as its next block, the longest
length w ∈ [1, min(W, N-i)] whose substring occurs in the source (candidates
tried longest first, first success kept); when no candidate is reusable it
emits a synthesis block of length exactly 1; every block advances the cursor
by its own length, and the reported total cost charges cost_pcr for reuse
blocks, the synthesis polynomial for synthesis blocks, and cost_join for
every block that does not start at position 0. -/
theorem c4_greedy_policy (src s : List Char) (cm : CostModel) (W : ℕ)
    (hs : s ≠ []) (hW : 1 ≤ W) :
    (∀ b ∈ greedy_blocks [strFM src] s W,
      b.bend = b.bstart + b.blen ∧ 1 ≤ b.blen ∧
      (b.breuse = true →
        (occursIn src (sliceOf s b.bstart b.bend) = true ∧
         b.blen ≤ min W (s.length - b.bstart) ∧
         ∀ w, b.blen < w → w ≤ min W (s.length - b.bstart) →
           occursIn src (sliceOf s b.bstart (b.bstart + w)) = false)) ∧
      (b.breuse = false →
        (b.blen = 1 ∧
         ∀ w, 1 ≤ w → w ≤ min W (s.length - b.bstart) →
           occursIn src (sliceOf s b.bstart (b.bstart + w)) = false))) ∧
    (solve_greedy_for_chromosome_stats [strFM src] cm s W).cost
      = partitionCost src cm s ((greedy_blocks [strFM src] s W).map (fun b => b.blen)) := by
  have h0 : s.length ≠ 0 := fun h => hs (List.length_eq_zero.1 h)
  constructor
  · exact fun b hb => greedyBlocksAux_policy src s W s.length s.length 0 b hb
  · obtain ⟨lens, hsum, hbnd, heq⟩ :=
      greedyBlocksAux_spec src s W s.length hW le_rfl s.length 0 (by omega) (by omega)
    have hmap : (greedy_blocks [strFM src] s W).map (fun b => b.blen) = lens := by
      unfold greedy_blocks
      rw [heq, blocksOfLens_map_blen]
    rw [hmap, solve_greedy_eq _ _ _ _ h0]
    show (greedyAux [strFM src] cm s W s.length s.length 0 zeroStats).cost = _
    rw [greedyAux_eq_accPlus, heq, accPlus_cost_blocks]
    show 0 + _ = _
    rw [zero_add]
    rfl

/-- Witness for C4 at a concrete instance. -/
theorem c4_greedy_policy_witness :
    ((['A','C'] : List Char) ≠ []) ∧ (1 ≤ 2) ∧
    ((∀ b ∈ greedy_blocks [strFM ['A']] ['A','C'] 2,
      b.bend = b.bstart + b.blen ∧ 1 ≤ b.blen ∧
      (b.breuse = true →
        (occursIn ['A'] (sliceOf ['A','C'] b.bstart b.bend) = true ∧
         b.blen ≤ min 2 ((['A','C'] : List Char).length - b.bstart) ∧
         ∀ w, b.blen < w → w ≤ min 2 ((['A','C'] : List Char).length - b.bstart) →
           occursIn ['A'] (sliceOf ['A','C'] b.bstart (b.bstart + w)) = false)) ∧
      (b.breuse = false →
        (b.blen = 1 ∧
         ∀ w, 1 ≤ w → w ≤ min 2 ((['A','C'] : List Char).length - b.bstart) →
           occursIn ['A'] (sliceOf ['A','C'] b.bstart (b.bstart + w)) = false))) ∧
    (solve_greedy_for_chromosome_stats [strFM ['A']] ⟨5, 1, 1, 0⟩ ['A','C'] 2).cost
      = partitionCost ['A'] ⟨5, 1, 1, 0⟩ ['A','C']
          ((greedy_blocks [strFM ['A']] ['A','C'] 2).map (fun b => b.blen))) :=
  ⟨of_decide_eq_true (by with_unfolding_all rfl),
   of_decide_eq_true (by with_unfolding_all rfl),
   c4_greedy_policy ['A'] ['A','C'] ⟨5, 1, 1, 0⟩ 2
     (of_decide_eq_true (by with_unfolding_all rfl))
     (of_decide_eq_true (by with_unfolding_all rfl))⟩

/-- C1 fails as stated: with non-negative cost parameters whose magnitude
exceeds the 1e18 DP sentinel (`cmBig`, cost_synth_linear = 2e18), on target
"A" with source "T" and W = 1 the only partition is one synthesis block of
cost 2e18, yet the planner reports the sentinel 1e18 itself and backtracking
reconstructs no partition at all (so the reported cost is not the minimum
partition cost and the reconstructed partition does not cover the sequence). -/
theorem c1_counterexample :
    (solve_dp_for_chromosome [strFM ['T']] cmBig ['A'] 1).cost = sentinel ∧
    partitionCost ['T'] cmBig ['A'] [1] = 2 * sentinel ∧
    dp_blocks [strFM ['T']] cmBig ['A'] 1 = [] := by
  refine ⟨?_, ?_, ?_⟩ <;> with_unfolding_all rfl

/-- C1 (amended): with W ∈ [1, 65535] (`chosen_len` is a uint16_t) and
non-negative cost parameters small enough that the 1e18 sentinel is
unreachable — N * (max(cost_pcr, cost_synth_linear + cost_synth_quad) +
cost_join) < 1e18 — the DP planner's reported total cost equals the minimum
over all partitions of [0, N) into blocks of lengths in [1, W] of the summed
acquisition and junction costs, and the partition reconstructed by
backtracking is such a partition and achieves exactly the reported cost. -/
theorem c1_dp_optimal (src s : List Char) (cm : CostModel) (W : ℕ)
    (hs : s ≠ []) (hW : 1 ≤ W) (hW16 : W < 65536)
    (hp : 0 ≤ cm.cost_pcr) (hj : 0 ≤ cm.cost_join)
    (hl : 0 ≤ cm.cost_synth_linear) (hq : 0 ≤ cm.cost_synth_quad)
    (hU : (s.length : ℚ) * (maxBlock1 cm + cm.cost_join) < sentinel) :
    ValidLens W s.length ((dp_blocks [strFM src] cm s W).reverse.map (fun b => b.blen)) ∧
    partitionCost src cm s ((dp_blocks [strFM src] cm s W).reverse.map (fun b => b.blen))
      = (solve_dp_for_chromosome [strFM src] cm s W).cost ∧
    (∀ lens, ValidLens W s.length lens →
      (solve_dp_for_chromosome [strFM src] cm s W).cost ≤ partitionCost src cm s lens) := by
  have h0 : s.length ≠ 0 := fun h => hs (List.length_eq_zero.1 h)
  obtain ⟨lens, hsum, hbnd, hrev, hcost⟩ :=
    backtrack_spec src cm s W hW hW16 hp hj hU s.length le_rfl s.length le_rfl
  have hblocks := dp_blocks_eq (strFM src) cm s W h0
  have hmap : (dp_blocks [strFM src] cm s W).reverse.map (fun b => b.blen) = lens := by
    rw [hblocks, hrev, blocksOfLens_map_blen]
  have hcost2 : (solve_dp_for_chromosome [strFM src] cm s W).cost
      = dpValAt (strFM src) cm s W s.length := by
    rw [solve_dp_eq _ _ _ _ h0]
    rfl
  refine ⟨?_, ?_, ?_⟩
  · rw [hmap]
    exact ⟨hsum, hbnd⟩
  · rw [hmap, hcost2]
    exact hcost
  · intro lens2 hv
    rw [hcost2]
    exact dp_le_partition src cm s W s.length le_rfl lens2 hv.1 hv.2

/-- Witness for the amended C1 at a concrete instance. -/
theorem c1_dp_optimal_witness :
    ((['A'] : List Char) ≠ []) ∧ (1 ≤ 1) ∧ (1 < 65536) ∧
    ((0:ℚ) ≤ 5) ∧ ((0:ℚ) ≤ 1) ∧ ((0:ℚ) ≤ 1) ∧ ((0:ℚ) ≤ 0) ∧
    (((['A'] : List Char).length : ℚ) * (maxBlock1 ⟨5, 1, 1, 0⟩ + (1:ℚ)) < sentinel) ∧
    (ValidLens 1 (['A'] : List Char).length
        ((dp_blocks [strFM ['A']] ⟨5, 1, 1, 0⟩ ['A'] 1).reverse.map (fun b => b.blen)) ∧
     partitionCost ['A'] ⟨5, 1, 1, 0⟩ ['A']
        ((dp_blocks [strFM ['A']] ⟨5, 1, 1, 0⟩ ['A'] 1).reverse.map (fun b => b.blen))
      = (solve_dp_for_chromosome [strFM ['A']] ⟨5, 1, 1, 0⟩ ['A'] 1).cost ∧
     (∀ lens, ValidLens 1 (['A'] : List Char).length lens →
       (solve_dp_for_chromosome [strFM ['A']] ⟨5, 1, 1, 0⟩ ['A'] 1).cost
         ≤ partitionCost ['A'] ⟨5, 1, 1, 0⟩ ['A'] lens)) :=
  ⟨of_decide_eq_true (by with_unfolding_all rfl),
   of_decide_eq_true (by with_unfolding_all rfl),
   of_decide_eq_true (by with_unfolding_all rfl),
   of_decide_eq_true (by with_unfolding_all rfl),
   of_decide_eq_true (by with_unfolding_all rfl),
   of_decide_eq_true (by with_unfolding_all rfl),
   of_decide_eq_true (by with_unfolding_all rfl),
   of_decide_eq_true (by with_unfolding_all rfl),
   c1_dp_optimal ['A'] ['A'] ⟨5, 1, 1, 0⟩ 1
     (of_decide_eq_true (by with_unfolding_all rfl))
     (of_decide_eq_true (by with_unfolding_all rfl))
     (of_decide_eq_true (by with_unfolding_all rfl))
     (of_decide_eq_true (by with_unfolding_all rfl))
     (of_decide_eq_true (by with_unfolding_all rfl))
     (of_decide_eq_true (by with_unfolding_all rfl))
     (of_decide_eq_true (by with_unfolding_all rfl))
     (of_decide_eq_true (by with_unfolding_all rfl))⟩

/-- C5 fails as stated: with the oversized `cmBig` parameters the DP
backtracking reconstructs no blocks at all on the non-empty target "A"
(sequence length 1, zero reported segments), so the produced partition does
not cover `[0, N)`. -/
theorem c5_counterexample :
    dp_blocks [strFM ['T']] cmBig ['A'] 1 = [] ∧
    (['A'] : List Char).length = 1 ∧
    (solve_dp_for_chromosome [strFM ['T']] cmBig ['A'] 1).segments = 0 := by
  refine ⟨?_, ?_, ?_⟩ <;> with_unfolding_all rfl

/-- C5 (amended): with W ∈ [1, 65535], non-negative cost_pcr and cost_join
and the 1e18 sentinel unreachable, the blocks produced by either planner form
a partition of [0, N): read left to right they are the consecutive half-open
intervals of a length list summing to N with every length in [1, W], the
reported segment count is the number of blocks, and the reported join count
is the block count minus 1 (0 when there are no blocks, so for N = 0). -/
theorem c5_partition_valid (src s : List Char) (cm : CostModel) (W : ℕ)
    (hW : 1 ≤ W) (hW16 : W < 65536)
    (hp : 0 ≤ cm.cost_pcr) (hj : 0 ≤ cm.cost_join)
    (hU : (s.length : ℚ) * (maxBlock1 cm + cm.cost_join) < sentinel) :
    (∃ lens, ValidLens W s.length lens ∧
      (dp_blocks [strFM src] cm s W).reverse.map (fun b => (b.bstart, b.bend))
        = intervalsOf 0 lens ∧
      (solve_dp_for_chromosome [strFM src] cm s W).segments = lens.length ∧
      (solve_dp_for_chromosome [strFM src] cm s W).joins
        = (if 0 < lens.length then lens.length - 1 else 0)) ∧
    (∃ lens, ValidLens W s.length lens ∧
      (greedy_blocks [strFM src] s W).map (fun b => (b.bstart, b.bend))
        = intervalsOf 0 lens ∧
      (solve_greedy_for_chromosome_stats [strFM src] cm s W).segments = lens.length ∧
      (solve_greedy_for_chromosome_stats [strFM src] cm s W).joins
        = (if 0 < lens.length then lens.length - 1 else 0)) := by
  by_cases h0 : s.length = 0
  · constructor
    · refine ⟨[], ⟨by simp [h0], by simp⟩, ?_, ?_, ?_⟩
      · simp [dp_blocks, h0, intervalsOf]
      · simp [solve_dp_for_chromosome, h0, zeroStats]
      · simp [solve_dp_for_chromosome, h0, zeroStats]
    · refine ⟨[], ⟨by simp [h0], by simp⟩, ?_, ?_, ?_⟩
      · have hgb : greedy_blocks [strFM src] s W = [] := by
          unfold greedy_blocks
          rw [h0]
          rfl
        rw [hgb]
        rfl
      · simp [solve_greedy_for_chromosome_stats, h0, zeroStats]
      · simp [solve_greedy_for_chromosome_stats, h0, zeroStats]
  · obtain ⟨lens, hsum, hbnd, hrev, hcost⟩ :=
      backtrack_spec src cm s W hW hW16 hp hj hU s.length le_rfl s.length le_rfl
    have hblocks := dp_blocks_eq (strFM src) cm s W h0
    have hsdp := solve_dp_eq (strFM src) cm s W h0
    have hlen : (backtrackAux (dpTable (strFM src) cm s W s.length).2 s.length s.length).length
        = lens.length := by
      rw [← List.length_reverse, hrev, blocksOfLens_length]
    constructor
    · refine ⟨lens, ⟨hsum, hbnd⟩, ?_, ?_, ?_⟩
      · rw [hblocks, hrev, blocksOfLens_map_interval]
      · rw [hsdp]
        simp only [statsOfBacktrack]
        exact hlen
      · rw [hsdp]
        simp only [statsOfBacktrack]
        rw [hlen]
    · obtain ⟨lens2, hsum2, hbnd2, heq2⟩ :=
        greedyBlocksAux_spec src s W s.length hW le_rfl s.length 0 (by omega) (by omega)
      have hsg := solve_greedy_eq [strFM src] cm s W h0
      have hg := greedyAux_eq_accPlus [strFM src] cm s W s.length s.length 0 zeroStats
      have hseg : (greedyAux [strFM src] cm s W s.length s.length 0 zeroStats).segments
          = lens2.length := by
        rw [hg, accPlus_segments, heq2, blocksOfLens_length]
        simp [zeroStats]
      refine ⟨lens2, ⟨by omega, hbnd2⟩, ?_, ?_, ?_⟩
      · rw [show greedy_blocks [strFM src] s W
            = greedyBlocksAux [strFM src] s W s.length s.length 0 from rfl,
          heq2, blocksOfLens_map_interval]
      · rw [hsg]
        show (greedyAux [strFM src] cm s W s.length s.length 0 zeroStats).segments
          = lens2.length
        exact hseg
      · rw [hsg]
        show (if 0 < (greedyAux [strFM src] cm s W s.length s.length 0 zeroStats).segments
            then (greedyAux [strFM src] cm s W s.length s.length 0 zeroStats).segments - 1
            else 0) = (if 0 < lens2.length then lens2.length - 1 else 0)
        rw [hseg]

/-- Witness for the amended C5 at a concrete instance. -/
theorem c5_partition_valid_witness :
    (1 ≤ 1) ∧ (1 < 65536) ∧ ((0:ℚ) ≤ 3) ∧ ((0:ℚ) ≤ 1) ∧
    (((['C'] : List Char).length : ℚ) * (maxBlock1 ⟨3, 1, 1, 0⟩ + (1:ℚ)) < sentinel) ∧
    ((∃ lens, ValidLens 1 (['C'] : List Char).length lens ∧
        (dp_blocks [strFM ['C']] ⟨3, 1, 1, 0⟩ ['C'] 1).reverse.map (fun b => (b.bstart, b.bend))
          = intervalsOf 0 lens ∧
        (solve_dp_for_chromosome [strFM ['C']] ⟨3, 1, 1, 0⟩ ['C'] 1).segments = lens.length ∧
        (solve_dp_for_chromosome [strFM ['C']] ⟨3, 1, 1, 0⟩ ['C'] 1).joins
          = (if 0 < lens.length then lens.length - 1 else 0)) ∧
      (∃ lens, ValidLens 1 (['C'] : List Char).length lens ∧
        (greedy_blocks [strFM ['C']] ['C'] 1).map (fun b => (b.bstart, b.bend))
          = intervalsOf 0 lens ∧
        (solve_greedy_for_chromosome_stats [strFM ['C']] ⟨3, 1, 1, 0⟩ ['C'] 1).segments
          = lens.length ∧
        (solve_greedy_for_chromosome_stats [strFM ['C']] ⟨3, 1, 1, 0⟩ ['C'] 1).joins
          = (if 0 < lens.length then lens.length - 1 else 0))) :=
  ⟨of_decide_eq_true (by with_unfolding_all rfl),
   of_decide_eq_true (by with_unfolding_all rfl),
   of_decide_eq_true (by with_unfolding_all rfl),
   of_decide_eq_true (by with_unfolding_all rfl),
   of_decide_eq_true (by with_unfolding_all rfl),
   c5_partition_valid ['C'] ['C'] ⟨3, 1, 1, 0⟩ 1
     (of_decide_eq_true (by with_unfolding_all rfl))
     (of_decide_eq_true (by with_unfolding_all rfl))
     (of_decide_eq_true (by with_unfolding_all rfl))
     (of_decide_eq_true (by with_unfolding_all rfl))
     (of_decide_eq_true (by with_unfolding_all rfl))⟩

/-- C6 fails as stated: with the oversized `cmBig` parameters every candidate
path cost at position 1 exceeds the sentinel initial value, the strict-<
update never fires, and the recorded data for position 1 is the untouched
initialiser (length 0, predecessor -1) rather than the predecessor, length
and kind of the smallest candidate length attaining the minimal path cost. -/
theorem c6_counterexample :
    (dpChoiceAt (strFM ['T']) cmBig ['A'] 1 1).len = 0 ∧
    (dpChoiceAt (strFM ['T']) cmBig ['A'] 1 1).pred = -1 ∧
    sentinel < candCost (strFM ['T']) cmBig ['A'] 1 1 1 :=
  ⟨by with_unfolding_all rfl, by with_unfolding_all rfl,
   of_decide_eq_true (by with_unfolding_all rfl)⟩

/-- C6 (amended): with W < 65536, at any position i of the sweep where at
least one candidate length has path cost below the sentinel, candidate
lengths are examined in increasing order with strict-< updates, so the stored
record for i is exactly that of the smallest candidate length w0 attaining
the minimal path cost: its cost, predecessor i - w0, length w0 and reuse
kind; it minimises the path cost over all candidates and strictly beats
every shorter candidate (first minimum kept under ties). -/
theorem c6_first_minimum (src s : List Char) (cm : CostModel) (W : ℕ)
    (i : ℕ) (hW16 : W < 65536) (h1 : 1 ≤ i) (hi : i ≤ s.length)
    (hex : ∃ w, 1 ≤ w ∧ w ≤ min W i ∧ candCost (strFM src) cm s W i w < sentinel) :
    ∃ w0, 1 ≤ w0 ∧ w0 ≤ min W i ∧
      dpChoiceAt (strFM src) cm s W i
        = ⟨candCost (strFM src) cm s W i w0, ((i - w0 : ℕ) : Int), w0,
            occursIn src (sliceOf s (i - w0) i)⟩ ∧
      (∀ w, 1 ≤ w → w ≤ min W i →
        candCost (strFM src) cm s W i w0 ≤ candCost (strFM src) cm s W i w) ∧
      (∀ w, 1 ≤ w → w < w0 →
        candCost (strFM src) cm s W i w0 < candCost (strFM src) cm s W i w) := by
  obtain ⟨w1, hw11, hw1m, hw1lt⟩ := hex
  rcases minFold_range'_char (candCost (strFM src) cm s W i) (candCh (strFM src) cm s W i)
      (fun v => rfl) (min W i) 1 initChoice with ⟨heq, hall⟩ | ⟨w0, hmem, heq, hlt, hall, hfirst⟩
  · exfalso
    have hmem1 : w1 ∈ List.range' 1 (min W i) := by
      rw [List.mem_range'_1]
      omega
    have hge := hall w1 hmem1
    have hic : initChoice.cost = sentinel := rfl
    rw [hic] at hge
    linarith
  · rw [List.mem_range'_1] at hmem
    have hchar := dpChoiceAt_char src cm s W h1 hi
    refine ⟨w0, by omega, by omega, ?_, ?_, ?_⟩
    · rw [hchar, heq]
      show candCh (strFM src) cm s W i w0 = _
      unfold candCh chOf
      have hm : w0 % 65536 = w0 := Nat.mod_eq_of_lt (by omega)
      rw [hm]
      rfl
    · intro w hw1 hwm
      exact hall w (by rw [List.mem_range'_1]; omega)
    · intro w hw1 hww
      exact hfirst w (by rw [List.mem_range'_1]; omega) hww

/-- Witness for the amended C6 at a concrete instance. -/
theorem c6_first_minimum_witness :
    (1 < 65536) ∧ (1 ≤ 1) ∧ (1 ≤ (['G'] : List Char).length) ∧
    (∃ w, 1 ≤ w ∧ w ≤ min 1 1 ∧
      candCost (strFM ['G']) ⟨2, 1, 1, 0⟩ ['G'] 1 1 w < sentinel) ∧
    (∃ w0, 1 ≤ w0 ∧ w0 ≤ min 1 1 ∧
      dpChoiceAt (strFM ['G']) ⟨2, 1, 1, 0⟩ ['G'] 1 1
        = ⟨candCost (strFM ['G']) ⟨2, 1, 1, 0⟩ ['G'] 1 1 w0, ((1 - w0 : ℕ) : Int), w0,
            occursIn ['G'] (sliceOf ['G'] (1 - w0) 1)⟩ ∧
      (∀ w, 1 ≤ w → w ≤ min 1 1 →
        candCost (strFM ['G']) ⟨2, 1, 1, 0⟩ ['G'] 1 1 w0
          ≤ candCost (strFM ['G']) ⟨2, 1, 1, 0⟩ ['G'] 1 1 w) ∧
      (∀ w, 1 ≤ w → w < w0 →
        candCost (strFM ['G']) ⟨2, 1, 1, 0⟩ ['G'] 1 1 w0
          < candCost (strFM ['G']) ⟨2, 1, 1, 0⟩ ['G'] 1 1 w)) :=
  ⟨of_decide_eq_true (by with_unfolding_all rfl),
   of_decide_eq_true (by with_unfolding_all rfl),
   of_decide_eq_true (by with_unfolding_all rfl),
   ⟨1, of_decide_eq_true (by with_unfolding_all rfl),
       of_decide_eq_true (by with_unfolding_all rfl),
       of_decide_eq_true (by with_unfolding_all rfl)⟩,
   c6_first_minimum ['G'] ['G'] ⟨2, 1, 1, 0⟩ 1 1
     (of_decide_eq_true (by with_unfolding_all rfl))
     (of_decide_eq_true (by with_unfolding_all rfl))
     (of_decide_eq_true (by with_unfolding_all rfl))
     ⟨1, of_decide_eq_true (by with_unfolding_all rfl),
         of_decide_eq_true (by with_unfolding_all rfl),
         of_decide_eq_true (by with_unfolding_all rfl)⟩⟩

/-- C7 is refuted by the code's behaviour: with non-negative cost parameters
of magnitude 2e18 (`cmBig`: target "A", source "T", W = 1) the only
achievable decomposition costs 2e18, strictly above the 1e18 sentinel, so for
this non-empty sequence the final DP[1] is the sentinel itself — not the cost
of any actual candidate block decomposition — and the recorded predecessor of
position 1 stays at the invalid initialiser -1 (the state guarded by the
backtracking loop's break). -/
theorem c7_sentinel_reachable :
    dpValAt (strFM ['T']) cmBig ['A'] 1 1 = sentinel ∧
    (dpChoiceAt (strFM ['T']) cmBig ['A'] 1 1).pred = -1 ∧
    candCost (strFM ['T']) cmBig ['A'] 1 1 1 = 2 * sentinel ∧
    sentinel < 2 * sentinel :=
  ⟨by with_unfolding_all rfl, by with_unfolding_all rfl,
   by with_unfolding_all rfl, of_decide_eq_true (by with_unfolding_all rfl)⟩

/-- C10 fails as stated: with the oversized `cmBig` parameters the DP result
on the length-1 target "A" reports reuse_bases + synth_bases = 0, which does
not equal the sequence length recorded in the same result. -/
theorem c10_counterexample :
    (solve_dp_for_chromosome [strFM ['T']] cmBig ['A'] 1).reuse_bases
      + (solve_dp_for_chromosome [strFM ['T']] cmBig ['A'] 1).synth_bases = 0 ∧
    (solve_dp_for_chromosome [strFM ['T']] cmBig ['A'] 1).length = 1 :=
  ⟨by with_unfolding_all rfl, by with_unfolding_all rfl⟩

/-- C10 (amended): with W ∈ [1, 65535], non-negative cost_pcr and cost_join
and the 1e18 sentinel unreachable, the counters reported by either planner
are mutually consistent: segments = reuse_moves + synth_moves, joins is
segments - 1 when segments > 0 and 0 otherwise, and reuse_bases + synth_bases
equals the sequence length N. -/
theorem c10_counters_consistent (src s : List Char) (cm : CostModel) (W : ℕ)
    (hW : 1 ≤ W) (hW16 : W < 65536)
    (hp : 0 ≤ cm.cost_pcr) (hj : 0 ≤ cm.cost_join)
    (hU : (s.length : ℚ) * (maxBlock1 cm + cm.cost_join) < sentinel) :
    ((solve_dp_for_chromosome [strFM src] cm s W).segments
        = (solve_dp_for_chromosome [strFM src] cm s W).reuse_moves
          + (solve_dp_for_chromosome [strFM src] cm s W).synth_moves ∧
      (solve_dp_for_chromosome [strFM src] cm s W).joins
        = (if 0 < (solve_dp_for_chromosome [strFM src] cm s W).segments
           then (solve_dp_for_chromosome [strFM src] cm s W).segments - 1 else 0) ∧
      (solve_dp_for_chromosome [strFM src] cm s W).reuse_bases
        + (solve_dp_for_chromosome [strFM src] cm s W).synth_bases = s.length) ∧
    ((solve_greedy_for_chromosome_stats [strFM src] cm s W).segments
        = (solve_greedy_for_chromosome_stats [strFM src] cm s W).reuse_moves
          + (solve_greedy_for_chromosome_stats [strFM src] cm s W).synth_moves ∧
      (solve_greedy_for_chromosome_stats [strFM src] cm s W).joins
        = (if 0 < (solve_greedy_for_chromosome_stats [strFM src] cm s W).segments
           then (solve_greedy_for_chromosome_stats [strFM src] cm s W).segments - 1 else 0) ∧
      (solve_greedy_for_chromosome_stats [strFM src] cm s W).reuse_bases
        + (solve_greedy_for_chromosome_stats [strFM src] cm s W).synth_bases
        = s.length) := by
  by_cases h0 : s.length = 0
  · constructor
    · refine ⟨?_, ?_, ?_⟩ <;> simp [solve_dp_for_chromosome, h0, zeroStats]
    · refine ⟨?_, ?_, ?_⟩ <;> simp [solve_greedy_for_chromosome_stats, h0, zeroStats]
  · obtain ⟨lens, hsum, hbnd, hrev, hcost⟩ :=
      backtrack_spec src cm s W hW hW16 hp hj hU s.length le_rfl s.length le_rfl
    have hsdp := solve_dp_eq (strFM src) cm s W h0
    have hbsum : ((backtrackAux (dpTable (strFM src) cm s W s.length).2
          s.length s.length).map (fun b => b.blen)).sum = s.length := by
      have h1 : ((backtrackAux (dpTable (strFM src) cm s W s.length).2
            s.length s.length).reverse.map (fun b => b.blen)).sum = lens.sum := by
        rw [hrev, blocksOfLens_map_blen]
      rw [List.map_reverse, List.sum_reverse] at h1
      rw [h1, hsum]
    constructor
    · refine ⟨?_, ?_, ?_⟩
      · rw [hsdp]
        simp only [statsOfBacktrack]
        exact (blocks_filter_length _).symm
      · rw [hsdp]
        simp only [statsOfBacktrack]
      · rw [hsdp]
        simp only [statsOfBacktrack]
        rw [blocks_bases_split, hbsum]
    · obtain ⟨lens2, hsum2, hbnd2, heq2⟩ :=
        greedyBlocksAux_spec src s W s.length hW le_rfl s.length 0 (by omega) (by omega)
      have hsg := solve_greedy_eq [strFM src] cm s W h0
      have hg := greedyAux_eq_accPlus [strFM src] cm s W s.length s.length 0 zeroStats
      refine ⟨?_, ?_, ?_⟩
      · rw [hsg]
        show (greedyAux [strFM src] cm s W s.length s.length 0 zeroStats).segments
          = (greedyAux [strFM src] cm s W s.length s.length 0 zeroStats).reuse_moves
            + (greedyAux [strFM src] cm s W s.length s.length 0 zeroStats).synth_moves
        rw [hg, accPlus_segments]
        have hmv := accPlus_moves cm (greedyBlocksAux [strFM src] s W s.length s.length 0)
          zeroStats
        simp only [zeroStats] at hmv ⊢
        omega
      · rw [hsg]
      · rw [hsg]
        show (greedyAux [strFM src] cm s W s.length s.length 0 zeroStats).reuse_bases
            + (greedyAux [strFM src] cm s W s.length s.length 0 zeroStats).synth_bases
          = s.length
        rw [hg, accPlus_bases, heq2, blocksOfLens_map_blen]
        show 0 + 0 + lens2.sum = s.length
        omega

/-- Witness for the amended C10 at a concrete instance. -/
theorem c10_counters_consistent_witness :
    (1 ≤ 2) ∧ (2 < 65536) ∧ ((0:ℚ) ≤ 2) ∧ ((0:ℚ) ≤ 1) ∧
    (((['G', 'G'] : List Char).length : ℚ) * (maxBlock1 ⟨2, 1, 1, 0⟩ + (1:ℚ)) < sentinel) ∧
    (((solve_dp_for_chromosome [strFM ['G']] ⟨2, 1, 1, 0⟩ ['G', 'G'] 2).segments
        = (solve_dp_for_chromosome [strFM ['G']] ⟨2, 1, 1, 0⟩ ['G', 'G'] 2).reuse_moves
          + (solve_dp_for_chromosome [strFM ['G']] ⟨2, 1, 1, 0⟩ ['G', 'G'] 2).synth_moves ∧
      (solve_dp_for_chromosome [strFM ['G']] ⟨2, 1, 1, 0⟩ ['G', 'G'] 2).joins
        = (if 0 < (solve_dp_for_chromosome [strFM ['G']] ⟨2, 1, 1, 0⟩ ['G', 'G'] 2).segments
           then (solve_dp_for_chromosome [strFM ['G']] ⟨2, 1, 1, 0⟩ ['G', 'G'] 2).segments - 1
           else 0) ∧
      (solve_dp_for_chromosome [strFM ['G']] ⟨2, 1, 1, 0⟩ ['G', 'G'] 2).reuse_bases
        + (solve_dp_for_chromosome [strFM ['G']] ⟨2, 1, 1, 0⟩ ['G', 'G'] 2).synth_bases
        = (['G', 'G'] : List Char).length) ∧
     ((solve_greedy_for_chromosome_stats [strFM ['G']] ⟨2, 1, 1, 0⟩ ['G', 'G'] 2).segments
        = (solve_greedy_for_chromosome_stats [strFM ['G']] ⟨2, 1, 1, 0⟩
            ['G', 'G'] 2).reuse_moves
          + (solve_greedy_for_chromosome_stats [strFM ['G']] ⟨2, 1, 1, 0⟩
              ['G', 'G'] 2).synth_moves ∧
      (solve_greedy_for_chromosome_stats [strFM ['G']] ⟨2, 1, 1, 0⟩ ['G', 'G'] 2).joins
        = (if 0 < (solve_greedy_for_chromosome_stats [strFM ['G']] ⟨2, 1, 1, 0⟩
              ['G', 'G'] 2).segments
           then (solve_greedy_for_chromosome_stats [strFM ['G']] ⟨2, 1, 1, 0⟩
              ['G', 'G'] 2).segments - 1
           else 0) ∧
      (solve_greedy_for_chromosome_stats [strFM ['G']] ⟨2, 1, 1, 0⟩ ['G', 'G'] 2).reuse_bases
        + (solve_greedy_for_chromosome_stats [strFM ['G']] ⟨2, 1, 1, 0⟩
            ['G', 'G'] 2).synth_bases
        = (['G', 'G'] : List Char).length)) :=
  ⟨of_decide_eq_true (by with_unfolding_all rfl),
   of_decide_eq_true (by with_unfolding_all rfl),
   of_decide_eq_true (by with_unfolding_all rfl),
   of_decide_eq_true (by with_unfolding_all rfl),
   of_decide_eq_true (by with_unfolding_all rfl),
   c10_counters_consistent ['G'] ['G', 'G'] ⟨2, 1, 1, 0⟩ 2
     (of_decide_eq_true (by with_unfolding_all rfl))
     (of_decide_eq_true (by with_unfolding_all rfl))
     (of_decide_eq_true (by with_unfolding_all rfl))
     (of_decide_eq_true (by with_unfolding_all rfl))
     (of_decide_eq_true (by with_unfolding_all rfl))⟩
